import Mathlib

/-!
Verification of the hexes library (hex-grid coordinate math, grid store,
spatial queries and A* pathfinding) against its specification.

The JavaScript sources are shallowly embedded:
* JS numbers that are used as integers (cube coordinates, grid keys,
  loop counters) become `Int`/`Nat`; numbers that may be fractional
  (interpolation, distances, A* priorities) become `ℚ`.
* JS `Map` (insertion ordered, unique keys) becomes an association list
  `List (String × α)` with `mapGet`/`mapSet`/`mapDelete` mirroring
  `get`/`set`/`delete` (a `set` on an existing key keeps its position,
  a new key is appended, exactly as JS Maps behave).
* `null`/`undefined` results become `Option`.
* The unbounded `while` loops of the A* search and of path
  reconstruction become fuel recursion; the fuel passed by `findPath`
  is proved sufficient, so fuel exhaustion is unreachable.
-/

set_option maxHeartbeats 1000000

namespace Hexes

/-! ### Cube coordinates (`coord.js`)

`Coord` is an integer cube coordinate, `QCoord` a coordinate whose axes
may be fractional (JS uses one number type for both). -/

structure Coord where
  x : Int
  y : Int
  z : Int
deriving DecidableEq

structure QCoord where
  x : ℚ
  y : ℚ
  z : ℚ
deriving DecidableEq

attribute [ext] Coord QCoord

/-- Inclusion of integer coordinates into fractional ones. -/
def coordQ (c : Coord) : QCoord := ⟨c.x, c.y, c.z⟩

/-- The six fixed direction vectors, in the canonical order of `coord.js`. -/
def DIRECTIONS : List Coord :=
  [⟨1, -1, 0⟩, ⟨1, 0, -1⟩, ⟨0, 1, -1⟩, ⟨-1, 1, 0⟩, ⟨-1, 0, 1⟩, ⟨0, -1, 1⟩]

def add (a b : Coord) : Coord := ⟨a.x + b.x, a.y + b.y, a.z + b.z⟩

/-- `equals` from `coord.js`: componentwise equality. -/
def equals (a b : Coord) : Bool := a.x == b.x && a.y == b.y && a.z == b.z

/-- `hash` from `coord.js`: the canonical string key `"x,y,z"`. -/
def hash (c : Coord) : String :=
  toString c.x ++ "," ++ toString c.y ++ "," ++ toString c.z

/-- `distance` from `coord.js`: `(|Δx| + |Δy| + |Δz|) / 2`. -/
def distance (a b : QCoord) : ℚ :=
  (|a.x - b.x| + |a.y - b.y| + |a.z - b.z|) / 2

/-- JS `Math.round`: nearest integer, ties toward `+∞`. -/
def jsRound (q : ℚ) : Int := ⌊q + 1 / 2⌋

/-- `round` from `coord.js`: round each axis, then recompute the axis
whose branch fires (`x` if its error is strictly greatest, else `y` if
its error strictly exceeds `z`'s, else `z`) from the other two. -/
def round (c : QCoord) : Coord :=
  let rx := jsRound c.x
  let ry := jsRound c.y
  let rz := jsRound c.z
  let xDiff := |(rx : ℚ) - c.x|
  let yDiff := |(ry : ℚ) - c.y|
  let zDiff := |(rz : ℚ) - c.z|
  if xDiff > yDiff ∧ xDiff > zDiff then ⟨-ry - rz, ry, rz⟩
  else if yDiff > zDiff then ⟨rx, -rx - rz, rz⟩
  else ⟨rx, ry, -rx - ry⟩

inductive Layout where
  | pointy
  | flat
deriving DecidableEq

structure Offset where
  col : Int
  row : Int
deriving DecidableEq

/-- `cubeToOffset` from `coord.js`.  JS `coordinate & 1` on an integer is
the nonnegative parity bit, i.e. `% 2` with `Int.emod`; the following
division by 2 is exact, so JS float division is `Int` division here. -/
def cubeToOffset (c : Coord) (layout : Layout) : Offset :=
  match layout with
  | .pointy => ⟨c.x + (c.z - c.z % 2) / 2, c.z⟩
  | .flat => ⟨c.x, c.z + (c.x - c.x % 2) / 2⟩

/-- `offsetToCube` from `coord.js` (same parity-bit reading as above). -/
def offsetToCube (o : Offset) (layout : Layout) : Coord :=
  match layout with
  | .pointy =>
    let x := o.col - (o.row - o.row % 2) / 2
    let z := o.row
    ⟨x, -x - z, z⟩
  | .flat =>
    let x := o.col
    let z := o.row - (o.col - o.col % 2) / 2
    ⟨x, -x - z, z⟩

/-! ### Injectivity of the canonical string key

`hash` renders the three axes in decimal, separated by commas.  We prove
it injective by relating core's decimal printer to a ghost digit list
`digitsOf` and decoding it. -/

/-- Ghost specification of core `Nat.toDigits 10`: decimal digits, most
significant first. -/
def digitsOf (n : Nat) : List Char :=
  if n < 10 then [Nat.digitChar n]
  else digitsOf (n / 10) ++ [Nat.digitChar (n % 10)]
termination_by n
decreasing_by exact Nat.div_lt_self (by omega) (by omega)

/-- Numeric value of a decimal digit character. -/
def dval (ch : Char) : Nat := ch.toNat - 48

theorem dval_digitChar : ∀ n, n < 10 → dval (Nat.digitChar n) = n := by decide

theorem digitChar_ne_comma : ∀ n, n < 10 → Nat.digitChar n ≠ ',' := by decide

theorem digitChar_ne_dash : ∀ n, n < 10 → Nat.digitChar n ≠ '-' := by decide

theorem digitsOf_ne_nil (n : Nat) : digitsOf n ≠ [] := by
  rw [digitsOf]
  split <;> simp

theorem mem_digitsOf : ∀ n ch, ch ∈ digitsOf n → ∃ k, k < 10 ∧ ch = Nat.digitChar k := by
  intro n
  induction n using Nat.strong_induction_on with
  | _ n ih =>
    intro ch hch
    rw [digitsOf] at hch
    by_cases h : n < 10
    · rw [if_pos h] at hch
      simp only [List.mem_singleton] at hch
      exact ⟨n, h, hch⟩
    · rw [if_neg h] at hch
      rcases List.mem_append.mp hch with h1 | h2
      · exact ih (n / 10) (Nat.div_lt_self (by omega) (by omega)) ch h1
      · simp only [List.mem_singleton] at h2
        exact ⟨n % 10, Nat.mod_lt _ (by omega), h2⟩

/-- Decode a decimal digit list. -/
def valOf (l : List Char) : Nat := l.foldl (fun a ch => 10 * a + dval ch) 0

theorem valOf_digitsOf : ∀ n, valOf (digitsOf n) = n := by
  intro n
  induction n using Nat.strong_induction_on with
  | _ n ih =>
    rw [digitsOf]
    by_cases h : n < 10
    · rw [if_pos h]
      simp only [valOf, List.foldl_cons, List.foldl_nil, Nat.mul_zero, Nat.zero_add]
      exact dval_digitChar n h
    · rw [if_neg h]
      simp only [valOf, List.foldl_append, List.foldl_cons, List.foldl_nil]
      have h1 : (digitsOf (n / 10)).foldl (fun a ch => 10 * a + dval ch) 0 = n / 10 :=
        ih (n / 10) (Nat.div_lt_self (by omega) (by omega))
      rw [h1, dval_digitChar (n % 10) (Nat.mod_lt _ (by omega))]
      omega

theorem digitsOf_injective {a b : Nat} (h : digitsOf a = digitsOf b) : a = b := by
  have ha := valOf_digitsOf a
  rw [h, valOf_digitsOf b] at ha
  exact ha.symm

theorem toDigitsCore_eq_digitsOf :
    ∀ (fuel n : Nat) (ds : List Char), n < fuel →
      Nat.toDigitsCore 10 fuel n ds = digitsOf n ++ ds := by
  intro fuel
  induction fuel with
  | zero => intro n ds h; omega
  | succ f ih =>
    intro n ds h
    rw [Nat.toDigitsCore]
    by_cases hq : n / 10 = 0
    · have hn : n < 10 := (Nat.div_eq_zero_iff (by omega)).mp hq
      rw [if_pos hq, digitsOf, if_pos hn, Nat.mod_eq_of_lt hn]
      simp
    · have hn : ¬ n < 10 := fun hc => hq (Nat.div_eq_of_lt hc)
      have hlt : n / 10 < f := by
        have h1 : n / 10 < n := Nat.div_lt_self (by omega) (by omega)
        omega
      have hR : digitsOf n = digitsOf (n / 10) ++ [Nat.digitChar (n % 10)] := by
        conv_lhs => rw [digitsOf]
        rw [if_neg hn]
      rw [if_neg hq, ih (n / 10) (Nat.digitChar (n % 10) :: ds) hlt, hR]
      simp

theorem natRepr_data (n : Nat) : (Nat.repr n).data = digitsOf n := by
  show (Nat.toDigits 10 n).asString.data = digitsOf n
  rw [Nat.toDigits, toDigitsCore_eq_digitsOf (n + 1) n [] (by omega)]
  simp [List.asString]

theorem intStr_data_ofNat (m : Nat) : (toString (Int.ofNat m)).data = digitsOf m :=
  natRepr_data m

theorem intStr_data_negSucc (m : Nat) :
    (toString (Int.negSucc m)).data = '-' :: digitsOf (m + 1) := by
  show (("-" : String) ++ Nat.repr (m + 1)).data = _
  rw [String.data_append, natRepr_data]
  rfl

theorem comma_not_mem_intStr (i : Int) : ',' ∉ (toString i).data := by
  cases i with
  | ofNat m =>
    rw [intStr_data_ofNat]
    intro hc
    obtain ⟨k, hk, he⟩ := mem_digitsOf m ',' hc
    exact digitChar_ne_comma k hk he.symm
  | negSucc m =>
    rw [intStr_data_negSucc]
    intro hc
    rcases List.mem_cons.mp hc with h1 | h2
    · exact absurd h1.symm (by decide)
    · obtain ⟨k, hk, he⟩ := mem_digitsOf (m + 1) ',' h2
      exact digitChar_ne_comma k hk he.symm

theorem intStr_data_inj {i j : Int} (h : (toString i).data = (toString j).data) :
    i = j := by
  cases i with
  | ofNat m =>
    cases j with
    | ofNat m' =>
      rw [intStr_data_ofNat, intStr_data_ofNat] at h
      exact congrArg Int.ofNat (digitsOf_injective h)
    | negSucc m' =>
      exfalso
      rw [intStr_data_ofNat, intStr_data_negSucc] at h
      obtain ⟨c, t, hct⟩ := List.exists_cons_of_ne_nil (digitsOf_ne_nil m)
      rw [hct] at h
      have hc : c ∈ digitsOf m := by rw [hct]; exact List.mem_cons_self _ _
      obtain ⟨k, hk, he⟩ := mem_digitsOf m c hc
      have hcd : c = '-' := by injection h with h1 _
      exact digitChar_ne_dash k hk (he ▸ hcd)
  | negSucc m =>
    cases j with
    | ofNat m' =>
      exfalso
      rw [intStr_data_negSucc, intStr_data_ofNat] at h
      obtain ⟨c, t, hct⟩ := List.exists_cons_of_ne_nil (digitsOf_ne_nil m')
      rw [hct] at h
      have hc : c ∈ digitsOf m' := by rw [hct]; exact List.mem_cons_self _ _
      obtain ⟨k, hk, he⟩ := mem_digitsOf m' c hc
      have hcd : '-' = c := by injection h with h1 _
      exact digitChar_ne_dash k hk (he ▸ hcd.symm)
    | negSucc m' =>
      rw [intStr_data_negSucc, intStr_data_negSucc] at h
      injection h with _ h2
      have hmm := digitsOf_injective h2
      exact congrArg Int.negSucc (by omega)

theorem append_comma_inj :
    ∀ (as cs bs ds : List Char), ',' ∉ as → ',' ∉ cs →
      as ++ ',' :: bs = cs ++ ',' :: ds → as = cs ∧ bs = ds := by
  intro as
  induction as with
  | nil =>
    intro cs bs ds _ hc h
    cases cs with
    | nil => simpa using h
    | cons c ct =>
      exfalso
      simp only [List.nil_append, List.cons_append] at h
      have : c = ',' := by injection h with h1 _; exact h1.symm
      exact hc (this ▸ List.mem_cons_self c ct)
  | cons a at' ih =>
    intro cs bs ds ha hc h
    cases cs with
    | nil =>
      exfalso
      simp only [List.cons_append, List.nil_append] at h
      have : a = ',' := by injection h with h1 _
      exact ha (this ▸ List.mem_cons_self a at')
    | cons c ct =>
      simp only [List.cons_append] at h
      injection h with h1 h2
      have ha' : ',' ∉ at' := fun hx => ha (List.mem_cons_of_mem _ hx)
      have hc' : ',' ∉ ct := fun hx => hc (List.mem_cons_of_mem _ hx)
      obtain ⟨he, hr⟩ := ih ct bs ds ha' hc' h2
      exact ⟨by rw [h1, he], hr⟩

theorem hash_data (c : Coord) :
    (hash c).data =
      (toString c.x).data ++ ',' ::
        ((toString c.y).data ++ ',' :: (toString c.z).data) := by
  simp only [hash, String.data_append]
  simp [List.append_assoc]

theorem hash_injective : Function.Injective hash := by
  intro a b h
  have hd : (hash a).data = (hash b).data := by rw [h]
  rw [hash_data, hash_data] at hd
  obtain ⟨hx, hrest⟩ :=
    append_comma_inj _ _ _ _ (comma_not_mem_intStr a.x) (comma_not_mem_intStr b.x) hd
  obtain ⟨hy, hz⟩ :=
    append_comma_inj _ _ _ _ (comma_not_mem_intStr a.y) (comma_not_mem_intStr b.y) hrest
  ext
  · exact intStr_data_inj hx
  · exact intStr_data_inj hy
  · exact intStr_data_inj hz

theorem hash_ne_of_ne {a b : Coord} (h : a ≠ b) : hash a ≠ hash b :=
  fun hc => h (hash_injective hc)

/-! ### JS `Map` as an insertion-ordered association list -/

/-- `Map.prototype.get`: first (and in a real JS Map, only) entry. -/
def mapGet {α : Type} (m : List (String × α)) (k : String) : Option α :=
  match m with
  | [] => none
  | (k', v) :: rest => if k' = k then some v else mapGet rest k

/-- `Map.prototype.set`: update in place if present, else append. -/
def mapSet {α : Type} (m : List (String × α)) (k : String) (v : α) :
    List (String × α) :=
  match m with
  | [] => [(k, v)]
  | (k', v') :: rest => if k' = k then (k, v) :: rest else (k', v') :: mapSet rest k v

/-- `Map.prototype.delete`. -/
def mapDelete {α : Type} (m : List (String × α)) (k : String) :
    List (String × α) :=
  match m with
  | [] => []
  | (k', v') :: rest => if k' = k then rest else (k', v') :: mapDelete rest k

/-- `Map.prototype.has`. -/
def mapHas {α : Type} (m : List (String × α)) (k : String) : Bool :=
  (mapGet m k).isSome

theorem mapGet_mapSet_self {α : Type} (m : List (String × α)) (k : String) (v : α) :
    mapGet (mapSet m k v) k = some v := by
  induction m with
  | nil => simp [mapGet, mapSet]
  | cons kv rest ih =>
    obtain ⟨k', v'⟩ := kv
    by_cases h : k' = k
    · simp [mapSet, mapGet, h]
    · simp [mapSet, mapGet, h, ih]

theorem mapGet_mapSet_ne {α : Type} (m : List (String × α)) (k k' : String) (v : α)
    (h : k' ≠ k) : mapGet (mapSet m k v) k' = mapGet m k' := by
  induction m with
  | nil => simp [mapGet, mapSet, Ne.symm h]
  | cons kv rest ih =>
    obtain ⟨k₀, v₀⟩ := kv
    by_cases h0 : k₀ = k
    · subst h0
      simp [mapSet, mapGet, Ne.symm h]
    · simp only [mapSet, if_neg h0, mapGet]
      by_cases h1 : k₀ = k'
      · simp [h1]
      · simp [h1, ih]

theorem mapGet_mapDelete_ne {α : Type} (m : List (String × α)) (k k' : String)
    (h : k' ≠ k) : mapGet (mapDelete m k) k' = mapGet m k' := by
  induction m with
  | nil => simp [mapDelete]
  | cons kv rest ih =>
    obtain ⟨k₀, v₀⟩ := kv
    by_cases h0 : k₀ = k
    · subst h0
      simp [mapDelete, mapGet, Ne.symm h]
    · simp only [mapDelete, if_neg h0, mapGet]
      by_cases h1 : k₀ = k'
      · simp [h1]
      · simp [h1, ih]

theorem mapDelete_of_get_none {α : Type} (m : List (String × α)) (k : String)
    (h : mapGet m k = none) : mapDelete m k = m := by
  induction m with
  | nil => rfl
  | cons kv rest ih =>
    obtain ⟨k₀, v₀⟩ := kv
    simp only [mapGet] at h
    by_cases h0 : k₀ = k
    · rw [if_pos h0] at h
      exact absurd h (by simp)
    · rw [if_neg h0] at h
      simp [mapDelete, h0, ih h]

theorem mapGet_eq_some_mem {α : Type} {m : List (String × α)} {k : String} {v : α}
    (h : mapGet m k = some v) : (k, v) ∈ m := by
  induction m with
  | nil => simp [mapGet] at h
  | cons kv rest ih =>
    obtain ⟨k₀, v₀⟩ := kv
    simp only [mapGet] at h
    by_cases h0 : k₀ = k
    · rw [if_pos h0] at h
      subst h0
      obtain rfl : v₀ = v := by injection h
      exact List.mem_cons_self _ _
    · rw [if_neg h0] at h
      exact List.mem_cons_of_mem _ (ih h)

theorem mem_mapSet {α : Type} {m : List (String × α)} {k : String} {v : α}
    {kv : String × α} (h : kv ∈ mapSet m k v) : kv ∈ m ∨ kv = (k, v) := by
  induction m with
  | nil => simpa [mapSet] using h
  | cons hd rest ih =>
    obtain ⟨k₀, v₀⟩ := hd
    by_cases h0 : k₀ = k
    · rw [mapSet, if_pos h0] at h
      rcases List.mem_cons.mp h with h1 | h2
      · exact Or.inr h1
      · exact Or.inl (List.mem_cons_of_mem _ h2)
    · rw [mapSet, if_neg h0] at h
      rcases List.mem_cons.mp h with h1 | h2
      · exact Or.inl (h1 ▸ List.mem_cons_self _ _)
      · rcases ih h2 with h3 | h3
        · exact Or.inl (List.mem_cons_of_mem _ h3)
        · exact Or.inr h3

theorem length_mapSet_of_get_none {α : Type} (m : List (String × α)) (k : String)
    (v : α) (h : mapGet m k = none) : (mapSet m k v).length = m.length + 1 := by
  induction m with
  | nil => rfl
  | cons kv rest ih =>
    obtain ⟨k₀, v₀⟩ := kv
    simp only [mapGet] at h
    by_cases h0 : k₀ = k
    · rw [if_pos h0] at h
      exact absurd h (by simp)
    · rw [if_neg h0] at h
      simp [mapSet, h0, ih h]

theorem length_mapSet_of_get_some {α : Type} (m : List (String × α)) (k : String)
    (v w : α) (h : mapGet m k = some w) : (mapSet m k v).length = m.length := by
  induction m with
  | nil => simp [mapGet] at h
  | cons kv rest ih =>
    obtain ⟨k₀, v₀⟩ := kv
    simp only [mapGet] at h
    by_cases h0 : k₀ = k
    · simp [mapSet, h0]
    · rw [if_neg h0] at h
      simp [mapSet, h0, ih h]

theorem mapGet_isSome_iff_mem_keys {α : Type} (m : List (String × α)) (k : String) :
    (mapGet m k).isSome ↔ k ∈ m.map Prod.fst := by
  induction m with
  | nil => simp [mapGet]
  | cons kv rest ih =>
    obtain ⟨k₀, v₀⟩ := kv
    by_cases h0 : k₀ = k
    · simp [mapGet, h0]
    · simp [mapGet, h0, ih, Ne.symm h0]

theorem keys_mapSet_of_get_some {α : Type} (m : List (String × α)) (k : String)
    (v w : α) (h : mapGet m k = some w) :
    (mapSet m k v).map Prod.fst = m.map Prod.fst := by
  induction m with
  | nil => simp [mapGet] at h
  | cons kv rest ih =>
    obtain ⟨k₀, v₀⟩ := kv
    simp only [mapGet] at h
    by_cases h0 : k₀ = k
    · simp [mapSet, h0]
    · rw [if_neg h0] at h
      simp [mapSet, h0, ih h]

theorem keys_mapSet_of_get_none {α : Type} (m : List (String × α)) (k : String)
    (v : α) (h : mapGet m k = none) :
    (mapSet m k v).map Prod.fst = m.map Prod.fst ++ [k] := by
  induction m with
  | nil => rfl
  | cons kv rest ih =>
    obtain ⟨k₀, v₀⟩ := kv
    simp only [mapGet] at h
    by_cases h0 : k₀ = k
    · rw [if_pos h0] at h
      exact absurd h (by simp)
    · rw [if_neg h0] at h
      simp [mapSet, h0, ih h]

/-! ### Cells, entity payloads and the grid (`grid.js`)

A cell's `data` payload is a JS object: a string-keyed record.  Its
values are either whole entity records (stored under the entity's `id`
by `setCellData`) or opaque field values (merged by the legacy
`Object.assign` fallback).  The core never inspects these further. -/

/-- An entity-like record: an optional `id` property (JS: absent,
empty-string falsy, or a truthy string) and opaque own fields. -/
structure Entity where
  id : Option String
  fields : List (String × String)
deriving DecidableEq

/-- A value stored in a cell's `data` record. -/
inductive JVal where
  | ent : Entity → JVal
  | raw : String → JVal
deriving DecidableEq

/-- A cell's `data` payload (a JS object as an ordered string map). -/
def Data : Type := List (String × JVal)

instance : DecidableEq Data := inferInstanceAs (DecidableEq (List (String × JVal)))

structure Cell where
  coord : Coord
  passable : Bool
  data : Data
deriving DecidableEq

/-- The `size` descriptor of a grid (rectangle, hex radius or custom
bounds).  Only the rectangle constructor is needed by the claims. -/
inductive GridSize where
  | rect : Nat → Nat → GridSize
  | hexr : Nat → GridSize
  | custom : Int → Int → Int → Int → GridSize
deriving DecidableEq

structure Grid where
  cells : List (String × Cell)
  layout : Layout
  size : GridSize
deriving DecidableEq

/-- `createGrid` from `grid.js` (rectangular), row-major insertion order.
JS defaults are `layout = "pointy"`, `defaultData = {}`; `{...defaultData}`
is a shallow copy, which is the identity on values. -/
def createGrid (width height : Nat) (layout : Layout) (defaultData : Data) : Grid :=
  let cells := (List.range height).foldl (fun acc row =>
    (List.range width).foldl (fun acc2 col =>
      let coord := offsetToCube ⟨(col : Int), (row : Int)⟩ layout
      mapSet acc2 (hash coord) { coord := coord, passable := true, data := defaultData })
      acc) []
  { cells := cells, layout := layout, size := GridSize.rect width height }

/-- `getCell`: `grid.cells.get(hash(coord)) || null`. -/
def getCell (grid : Grid) (coord : Coord) : Option Cell :=
  mapGet grid.cells (hash coord)

/-- `setCell`: copy-on-write replacement of the entry at `hash(coord)`;
the stored cell is `{...cell, coord}`, i.e. its `coord` field is forced
to the target coordinate. -/
def setCell (grid : Grid) (coord : Coord) (cell : Cell) : Grid :=
  { grid with cells := mapSet grid.cells (hash coord) { cell with coord := coord } }

/-- `updateCell`: no-op on a missing coordinate, else `setCell` of the
updated cell. -/
def updateCell (grid : Grid) (coord : Coord) (updater : Cell → Cell) : Grid :=
  match getCell grid coord with
  | none => grid
  | some cell => setCell grid coord (updater cell)

/-- `removeCell`: copy-on-write deletion of the entry at `hash(coord)`. -/
def removeCell (grid : Grid) (coord : Coord) : Grid :=
  { grid with cells := mapDelete grid.cells (hash coord) }

/-- `setPassable`: `updateCell` writing the `passable` field. -/
def setPassable (grid : Grid) (coord : Coord) (passable : Bool) : Grid :=
  updateCell grid coord (fun cell => { cell with passable := passable })

/-- `isPassable`: a missing cell reads as not passable. -/
def isPassable (grid : Grid) (coord : Coord) : Bool :=
  match getCell grid coord with
  | some cell => cell.passable
  | none => false

/-- `hasCell`. -/
def hasCell (grid : Grid) (coord : Coord) : Bool :=
  mapHas grid.cells (hash coord)

/-- `mapCells`: rebuild the map with `fn` applied to every cell, keys
and iteration order unchanged. -/
def mapCells (grid : Grid) (fn : Cell → Cell) : Grid :=
  { grid with cells := grid.cells.map (fun kv => (kv.1, fn kv.2)) }

/-- JS truthiness of `entity.id`. -/
def entityIdTruthy (e : Entity) : Bool :=
  match e.id with
  | some s => s != ""
  | none => false

/-- `Object.assign(newData, entity)`: copy the entity's own properties
(its `id` property when present, then its fields) into the record. -/
def assignEntity (d : Data) (e : Entity) : Data :=
  let d1 : Data := match e.id with
    | some s => mapSet d "id" (JVal.raw s)
    | none => d
  e.fields.foldl (fun acc kv => mapSet acc kv.1 (JVal.raw kv.2)) d1

/-- One step of `setCellData`'s entity loop: entities with a truthy `id`
are stored whole under that id; others are shallow-merged (legacy path). -/
def applyEntity (d : Data) (e : Entity) : Data :=
  if entityIdTruthy e then
    match e.id with
    | some s => mapSet d s (JVal.ent e)
    | none => d
  else assignEntity d e

/-- `setCellData` from `grid.js`.  `none` list elements model JS
`null`/`undefined` entities, which are skipped with a console warning;
an empty entity list and a missing cell are warned no-ops. -/
def setCellData (grid : Grid) (coord : Coord) (entities : List (Option Entity)) : Grid :=
  match getCell grid coord with
  | none => grid
  | some cell =>
    if entities.length = 0 then grid
    else
      let newData := entities.foldl (fun acc oe =>
        match oe with
        | none => acc
        | some e => applyEntity acc e) cell.data
      setCell grid coord { cell with data := newData }

/-! ### Spatial queries (`neighbors.js`) -/

/-- `getNeighbors`: the six directions in canonical order, kept when the
target exists (and, with `passableOnly`, is passable). -/
def getNeighbors (grid : Grid) (coord : Coord) (passableOnly : Bool) : List Coord :=
  (DIRECTIONS.map (add coord)).filter
    (fun n => hasCell grid n && (!passableOnly || isPassable grid n))

/-- `getRing`: full scan keeping cells at exactly the given distance,
in map iteration order. -/
def getRing (grid : Grid) (coord : Coord) (radius : ℚ) : List Coord :=
  (grid.cells.filter
      (fun kv => decide (distance (coordQ coord) (coordQ kv.2.coord) = radius))).map
    (fun kv => kv.2.coord)

/-- `getSpiral`: `[center]` then the rings at radii `1..maxRadius`. -/
def getSpiral (grid : Grid) (center : Coord) (maxRadius : Nat) : List Coord :=
  (List.range' 1 maxRadius).foldl
    (fun acc (r : Nat) => acc ++ getRing grid center (r : ℚ)) [center]

/-- The body of `getReachable`'s neighbor loop: append an unvisited
neighbor to the fringe under construction and mark it visited. -/
def reachInsert (st : List String × List Coord) (n : Coord) :
    List String × List Coord :=
  if st.1.contains (hash n) then st else (hash n :: st.1, st.2 ++ [n])

/-- Process one coordinate of the previous fringe. -/
def reachStep (grid : Grid) (st : List String × List Coord) (coord : Coord) :
    List String × List Coord :=
  (getNeighbors grid coord true).foldl reachInsert st

/-- One breadth-first layer of `getReachable`: scan the previous fringe
in order, appending each unvisited passable neighbor and marking it
visited. -/
def reachLayer (grid : Grid) (visited : List String) (prev : List Coord) :
    List String × List Coord :=
  prev.foldl (reachStep grid) (visited, [])

/-- The successive fringes `1..k` of `getReachable`. -/
def reachLayers (grid : Grid) : Nat → List String → List Coord → List (List Coord)
  | 0, _, _ => []
  | k + 1, visited, prev =>
    let vl := reachLayer grid visited prev
    vl.2 :: reachLayers grid k vl.1 vl.2

/-- `getReachable` from `neighbors.js`: breadth-first flood fill through
passable neighbors, returning the concatenation of the fringes. -/
def getReachable (grid : Grid) (start : Coord) (maxDistance : Nat) : List Coord :=
  ([start] :: reachLayers grid maxDistance [hash start] [start]).flatten

/-! ### A* pathfinding (`pathfinding.js`)

The JS `PriorityQueue` pushes the new item and then stably sorts the
whole array by ascending priority; a stable comparison sort is uniquely
determined by its comparator, so `List.insertionSort` (which is stable)
is the faithful model.  `dequeue` shifts the front element. -/

structure PQEntry where
  item : Coord
  priority : ℚ
deriving DecidableEq

def pqLe (a b : PQEntry) : Prop := a.priority ≤ b.priority

instance : DecidableRel pqLe :=
  fun a b => inferInstanceAs (Decidable (a.priority ≤ b.priority))

instance : IsTotal PQEntry pqLe := ⟨fun a b => le_total a.priority b.priority⟩

instance : IsTrans PQEntry pqLe := ⟨fun _ _ _ hab hbc => le_trans hab hbc⟩

/-- `PriorityQueue.enqueue`: push, then stable sort by priority. -/
def pqEnqueue (items : List PQEntry) (c : Coord) (p : ℚ) : List PQEntry :=
  List.insertionSort pqLe (items ++ [⟨c, p⟩])

/-- `defaultHeuristic`: hex distance. -/
def defaultHeuristic (a b : Coord) : ℚ := distance (coordQ a) (coordQ b)

/-- `defaultCostFn`: always 1. -/
def defaultCostFn (_ _ : Coord) : ℚ := 1

/-- The mutable search state of `findPath`'s main loop. -/
structure AState where
  frontier : List PQEntry
  cameFrom : List (String × Option Coord)
  costSoFar : List (String × ℚ)
deriving DecidableEq

/-- `reconstructPath`'s `while (current)` loop: prepend the current
coordinate, stop at the start key, else follow the predecessor link
(a missing or null link ends the walk).  The fuel passed by the caller
is proved sufficient. -/
def reconstructPath (cameFrom : List (String × Option Coord)) (startKey : String) :
    Nat → Coord → List Coord → List Coord
  | 0, current, path => current :: path
  | fuel + 1, current, path =>
    if hash current = startKey then current :: path
    else
      match mapGet cameFrom (hash current) with
      | some (some prev) => reconstructPath cameFrom startKey fuel prev (current :: path)
      | _ => current :: path

/-- The body of `findPath`'s neighbor loop: relax one passable neighbor
of `current`, re-enqueueing it when its recorded cost improves.
(`(mapGet …).getD 0` reads `costSoFar.get(currentKey)`, which is proved
to always be present when this runs.) -/
def relaxNeighbor (endC : Coord) (heuristic costFn : Coord → Coord → ℚ)
    (current : Coord) (st : AState) (next : Coord) : AState :=
  let nextKey := hash next
  let newCost := (mapGet st.costSoFar (hash current)).getD 0 + costFn current next
  let improves : Bool :=
    match mapGet st.costSoFar nextKey with
    | none => true
    | some old => decide (newCost < old)
  if improves then
    { frontier := pqEnqueue st.frontier next (newCost + heuristic next endC),
      cameFrom := mapSet st.cameFrom nextKey (some current),
      costSoFar := mapSet st.costSoFar nextKey newCost }
  else st

/-- `findPath`'s `while (!frontier.isEmpty())` loop as fuel recursion:
`none` means out of fuel (proved unreachable), `some none` a null
result, `some (some p)` a found path. -/
def astarLoop (grid : Grid) (startC endC : Coord)
    (heuristic costFn : Coord → Coord → ℚ) :
    Nat → AState → Option (Option (List Coord))
  | 0, _ => none
  | fuel + 1, st =>
    match st.frontier with
    | [] => some none
    | entry :: rest =>
      let current := entry.item
      if hash current = hash endC then
        some (some (reconstructPath st.cameFrom (hash startC)
          (st.cameFrom.length + 1) endC []))
      else
        astarLoop grid startC endC heuristic costFn fuel
          ((getNeighbors grid current true).foldl
            (relaxNeighbor endC heuristic costFn current)
            { st with frontier := rest })

/-- Fuel that is proved to dominate the loop's termination measure. -/
def findPathFuel (grid : Grid) : Nat :=
  (grid.cells.length + 2) * (grid.cells.length + 2) + 2

/-- The initial search state of `findPath`. -/
def initState (startC : Coord) : AState :=
  { frontier := [⟨startC, 0⟩],
    cameFrom := [(hash startC, none)],
    costSoFar := [(hash startC, 0)] }

/-- `findPath` from `pathfinding.js`. -/
def findPath (grid : Grid) (startC endC : Coord)
    (heuristic costFn : Coord → Coord → ℚ) : Option (List Coord) :=
  if equals startC endC then some [startC]
  else
    (astarLoop grid startC endC heuristic costFn (findPathFuel grid)
      (initState startC)).join

/-! ### Basic lemmas about coordinates and distance -/

theorem coordQ_inj {a b : Coord} (h : coordQ a = coordQ b) : a = b := by
  have hx : ((a.x : ℚ)) = (b.x : ℚ) := congrArg QCoord.x h
  have hy : ((a.y : ℚ)) = (b.y : ℚ) := congrArg QCoord.y h
  have hz : ((a.z : ℚ)) = (b.z : ℚ) := congrArg QCoord.z h
  ext
  · exact_mod_cast hx
  · exact_mod_cast hy
  · exact_mod_cast hz

theorem distance_comm (a b : QCoord) : distance a b = distance b a := by
  unfold distance
  rw [abs_sub_comm a.x, abs_sub_comm a.y, abs_sub_comm a.z]

theorem distance_self (a : QCoord) : distance a a = 0 := by
  simp [distance]

theorem distance_eq_zero_iff (a b : QCoord) : distance a b = 0 ↔ a = b := by
  constructor
  · intro h
    unfold distance at h
    have h0 : |a.x - b.x| + |a.y - b.y| + |a.z - b.z| = 0 := by linarith
    have hx : |a.x - b.x| = 0 := by
      have n1 := abs_nonneg (a.x - b.x)
      have n2 := abs_nonneg (a.y - b.y)
      have n3 := abs_nonneg (a.z - b.z)
      linarith
    have hy : |a.y - b.y| = 0 := by
      have n2 := abs_nonneg (a.y - b.y)
      have n3 := abs_nonneg (a.z - b.z)
      linarith
    have hz : |a.z - b.z| = 0 := by
      have n3 := abs_nonneg (a.z - b.z)
      linarith
    ext
    · exact sub_eq_zero.mp (abs_eq_zero.mp hx)
    · exact sub_eq_zero.mp (abs_eq_zero.mp hy)
    · exact sub_eq_zero.mp (abs_eq_zero.mp hz)
  · rintro rfl
    exact distance_self a

theorem distance_triangle (a b c : QCoord) :
    distance a c ≤ distance a b + distance b c := by
  unfold distance
  have hx := abs_sub_le a.x b.x c.x
  have hy := abs_sub_le a.y b.y c.y
  have hz := abs_sub_le a.z b.z c.z
  linarith

theorem distance_nonneg (a b : QCoord) : 0 ≤ distance a b := by
  unfold distance
  have n1 := abs_nonneg (a.x - b.x)
  have n2 := abs_nonneg (a.y - b.y)
  have n3 := abs_nonneg (a.z - b.z)
  linarith

theorem distance_int (a b : Coord) (ha : a.x + a.y + a.z = 0)
    (hb : b.x + b.y + b.z = 0) :
    ∃ n : ℤ, distance (coordQ a) (coordQ b) = (n : ℚ) := by
  have habs : ∀ i : ℤ, |(i : ℚ)| = ((|i| : ℤ) : ℚ) := fun i => by
    rw [Int.cast_abs]
  obtain ⟨m, hm⟩ : ∃ m : ℤ, |a.x - b.x| + |a.y - b.y| + |a.z - b.z| = 2 * m := by
    refine ⟨(|a.x - b.x| + |a.y - b.y| + |a.z - b.z|) / 2, ?_⟩
    simp only [Int.abs_eq_natAbs]
    omega
  refine ⟨m, ?_⟩
  unfold distance coordQ
  push_cast
  rw [show (a.x : ℚ) - b.x = ((a.x - b.x : ℤ) : ℚ) by push_cast; ring,
    show (a.y : ℚ) - b.y = ((a.y - b.y : ℤ) : ℚ) by push_cast; ring,
    show (a.z : ℚ) - b.z = ((a.z - b.z : ℤ) : ℚ) by push_cast; ring,
    habs, habs, habs]
  rw [show ((|a.x - b.x| : ℤ) : ℚ) + ((|a.y - b.y| : ℤ) : ℚ) + ((|a.z - b.z| : ℤ) : ℚ)
      = (((|a.x - b.x| + |a.y - b.y| + |a.z - b.z| : ℤ)) : ℚ) by push_cast; ring, hm]
  push_cast
  ring

/-! ### Lemmas about the grid store -/

/-- Every stored entry's key is the hash of its cell's coordinate. -/
def KeyInvariant (g : Grid) : Prop := ∀ kv ∈ g.cells, kv.1 = hash kv.2.coord

instance (g : Grid) : Decidable (KeyInvariant g) :=
  inferInstanceAs (Decidable (∀ kv ∈ g.cells, kv.1 = hash kv.2.coord))

theorem keyInvariant_setCell (g : Grid) (c : Coord) (cell : Cell)
    (h : KeyInvariant g) : KeyInvariant (setCell g c cell) := by
  intro kv hkv
  rcases mem_mapSet hkv with h1 | h2
  · exact h kv h1
  · subst h2; rfl

theorem mapGet_map_snd {α : Type} (l : List (String × α)) (fn : α → α) (k : String) :
    mapGet (l.map (fun kv => (kv.1, fn kv.2))) k = (mapGet l k).map fn := by
  induction l with
  | nil => rfl
  | cons kv rest ih =>
    obtain ⟨k₀, v₀⟩ := kv
    by_cases h : k₀ = k
    · simp [mapGet, h]
    · simp [mapGet, h, ih]

theorem getCell_setCell_ne (g : Grid) (c c' : Coord) (cell : Cell) (hne : c' ≠ c) :
    getCell (setCell g c cell) c' = getCell g c' :=
  mapGet_mapSet_ne _ _ _ _ (hash_ne_of_ne hne)

theorem getCell_updateCell_ne (g : Grid) (c c' : Coord) (f : Cell → Cell)
    (hne : c' ≠ c) : getCell (updateCell g c f) c' = getCell g c' := by
  unfold updateCell
  cases getCell g c with
  | none => rfl
  | some cell => exact getCell_setCell_ne g c c' (f cell) hne

theorem getCell_setCellData_ne (g : Grid) (c c' : Coord) (es : List (Option Entity))
    (hne : c' ≠ c) : getCell (setCellData g c es) c' = getCell g c' := by
  unfold setCellData
  cases getCell g c with
  | none => rfl
  | some cell =>
    by_cases hlen : es.length = 0
    · simp [hlen]
    · simp only [if_neg hlen]
      exact getCell_setCell_ne g c c' _ hne

/-! ### C3: copy-on-write frame property -/

/-- C3.  Each mutator (`setCell`, `updateCell`, `removeCell`,
`setPassable`, `setCellData`) leaves the cell at every other coordinate
unchanged, and `mapCells` maps every entry pointwise without touching
keys.  In this pure embedding a mutator returns a new `Grid` value and
cannot alter the original, so the claim's "original grid is unchanged"
part holds by construction; the theorem states the per-coordinate frame
contract of the returned grid. -/
theorem c3_copy_on_write_frame (g : Grid) (c c' : Coord) (cell : Cell)
    (f : Cell → Cell) (b : Bool) (es : List (Option Entity)) (fn : Cell → Cell)
    (hne : c' ≠ c) :
    getCell (setCell g c cell) c' = getCell g c' ∧
    getCell (updateCell g c f) c' = getCell g c' ∧
    getCell (removeCell g c) c' = getCell g c' ∧
    getCell (setPassable g c b) c' = getCell g c' ∧
    getCell (setCellData g c es) c' = getCell g c' ∧
    getCell (mapCells g fn) c' = (getCell g c').map fn :=
  ⟨getCell_setCell_ne g c c' cell hne,
   getCell_updateCell_ne g c c' f hne,
   mapGet_mapDelete_ne _ _ _ (hash_ne_of_ne hne),
   getCell_updateCell_ne g c c' _ hne,
   getCell_setCellData_ne g c c' es hne,
   mapGet_map_snd g.cells fn (hash c')⟩

/-- Witness for C3 on a concrete 2×1 grid. -/
theorem c3_copy_on_write_frame_witness :
    ((⟨1, -1, 0⟩ : Coord) ≠ ⟨0, 0, 0⟩) ∧
    getCell (setCell (createGrid 2 1 Layout.pointy []) ⟨0, 0, 0⟩
        ⟨⟨9, 9, 9⟩, false, []⟩) ⟨1, -1, 0⟩ =
      getCell (createGrid 2 1 Layout.pointy []) ⟨1, -1, 0⟩ :=
  ⟨by decide,
    (c3_copy_on_write_frame (createGrid 2 1 Layout.pointy []) ⟨0, 0, 0⟩ ⟨1, -1, 0⟩
      ⟨⟨9, 9, 9⟩, false, []⟩ id false [] id (by decide)).1⟩

/-! ### C7: mutations at a missing coordinate are no-ops -/

/-- C7.  At a coordinate absent from the grid, `getCell` is `null`
(embedded as `none`; no exception can be thrown) and `updateCell`,
`setCellData` and `removeCell` return the grid unchanged. -/
theorem c7_missing_coordinate_noops (g : Grid) (c : Coord) (f : Cell → Cell)
    (es : List (Option Entity)) (h : hasCell g c = false) :
    getCell g c = none ∧ updateCell g c f = g ∧ setCellData g c es = g ∧
    removeCell g c = g := by
  have hget : getCell g c = none := by
    unfold hasCell mapHas at h
    unfold getCell
    exact Option.not_isSome_iff_eq_none.mp (by simp [h])
  refine ⟨hget, ?_, ?_, ?_⟩
  · unfold updateCell
    rw [hget]
  · unfold setCellData
    rw [hget]
  · unfold removeCell
    rw [mapDelete_of_get_none g.cells (hash c) hget]

/-- Witness for C7 at a coordinate outside a concrete 1×1 grid. -/
theorem c7_missing_coordinate_noops_witness :
    (hasCell (createGrid 1 1 Layout.pointy []) ⟨5, -5, 0⟩ = false) ∧
    (getCell (createGrid 1 1 Layout.pointy []) ⟨5, -5, 0⟩ = none ∧
      updateCell (createGrid 1 1 Layout.pointy []) ⟨5, -5, 0⟩ id =
        createGrid 1 1 Layout.pointy [] ∧
      setCellData (createGrid 1 1 Layout.pointy []) ⟨5, -5, 0⟩ [] =
        createGrid 1 1 Layout.pointy [] ∧
      removeCell (createGrid 1 1 Layout.pointy []) ⟨5, -5, 0⟩ =
        createGrid 1 1 Layout.pointy []) :=
  ⟨by decide,
    c7_missing_coordinate_noops (createGrid 1 1 Layout.pointy []) ⟨5, -5, 0⟩ id []
      (by decide)⟩

/-! ### C10: stored keys are the hashes of stored coordinates -/

/-- C10.  `setCell` stores the cell under `hash c` with its `coord`
field overwritten to `c` (even when `cell.coord` differs), so the entry
read back at `c` carries coordinate `c`; consequently `setCell` —
and with it `updateCell`, `setPassable` and `setCellData` — preserves
the invariant that every entry's key is the hash of its stored
coordinate. -/
theorem c10_setCell_key_invariant (g : Grid) (c : Coord) (cell : Cell)
    (h : KeyInvariant g) :
    getCell (setCell g c cell) c = some { cell with coord := c } ∧
    KeyInvariant (setCell g c cell) ∧
    (∀ f, KeyInvariant (updateCell g c f)) ∧
    (∀ b, KeyInvariant (setPassable g c b)) ∧
    (∀ es, KeyInvariant (setCellData g c es)) := by
  have hupd : ∀ f, KeyInvariant (updateCell g c f) := by
    intro f
    unfold updateCell
    cases getCell g c with
    | none => exact h
    | some cl => exact keyInvariant_setCell g c (f cl) h
  refine ⟨mapGet_mapSet_self _ _ _, keyInvariant_setCell g c cell h, hupd,
    fun b => hupd _, ?_⟩
  intro es
  unfold setCellData
  cases getCell g c with
  | none => exact h
  | some cl =>
    by_cases hlen : es.length = 0
    · simpa [hlen] using h
    · simp only [if_neg hlen]
      exact keyInvariant_setCell g c _ h

/-- Witness for C10: writing a cell whose own `coord` disagrees with the
target coordinate. -/
theorem c10_setCell_key_invariant_witness :
    KeyInvariant (createGrid 1 1 Layout.pointy []) ∧
    getCell (setCell (createGrid 1 1 Layout.pointy []) ⟨0, 0, 0⟩
        ⟨⟨7, -7, 0⟩, true, []⟩) ⟨0, 0, 0⟩ =
      some ⟨⟨0, 0, 0⟩, true, []⟩ :=
  ⟨by decide,
    (c10_setCell_key_invariant (createGrid 1 1 Layout.pointy []) ⟨0, 0, 0⟩
      ⟨⟨7, -7, 0⟩, true, []⟩ (by decide)).1⟩

/-! ### C4: cube rounding -/

/-- The rounding rule exactly as the claim words it ("recompute the axis
whose rounding error is strictly greatest; z on ties"), kept separate
from the source's `round` for comparison. -/
def roundSpec (c : QCoord) : Coord :=
  let rx := jsRound c.x
  let ry := jsRound c.y
  let rz := jsRound c.z
  let xDiff := |(rx : ℚ) - c.x|
  let yDiff := |(ry : ℚ) - c.y|
  let zDiff := |(rz : ℚ) - c.z|
  if xDiff > yDiff ∧ xDiff > zDiff then ⟨-ry - rz, ry, rz⟩
  else if yDiff > xDiff ∧ yDiff > zDiff then ⟨rx, -rx - rz, rz⟩
  else ⟨rx, ry, -rx - ry⟩

/-- C4 counterexample.  At `(1/2, 1/2, 0)` the x- and y-errors tie and
both exceed the z-error: the code's `yDiff > zDiff` branch recomputes
`y`, while the claim's strictly-greatest rule would recompute `z`. -/
theorem c4_round_counterexample :
    round ⟨1 / 2, 1 / 2, 0⟩ = ⟨1, -1, 0⟩ ∧
    roundSpec ⟨1 / 2, 1 / 2, 0⟩ = ⟨1, 1, -2⟩ ∧
    round ⟨1 / 2, 1 / 2, 0⟩ ≠ roundSpec ⟨1 / 2, 1 / 2, 0⟩ := by
  refine ⟨?_, ?_, ?_⟩ <;> with_unfolding_all decide

/-- C4 (amended).  `round` rounds each axis and recomputes exactly one
axis from the other two, so the result always satisfies `x+y+z = 0`;
the recomputed axis is `x` when its error is strictly greatest, else
`y` when `y`'s error strictly exceeds `z`'s (regardless of `x`), else
`z`. -/
theorem c4_round_amended (c : QCoord) :
    ((round c).x + (round c).y + (round c).z = 0) ∧
    (|(jsRound c.x : ℚ) - c.x| > |(jsRound c.y : ℚ) - c.y| ∧
        |(jsRound c.x : ℚ) - c.x| > |(jsRound c.z : ℚ) - c.z| →
      round c = ⟨-jsRound c.y - jsRound c.z, jsRound c.y, jsRound c.z⟩) ∧
    (¬(|(jsRound c.x : ℚ) - c.x| > |(jsRound c.y : ℚ) - c.y| ∧
        |(jsRound c.x : ℚ) - c.x| > |(jsRound c.z : ℚ) - c.z|) →
      |(jsRound c.y : ℚ) - c.y| > |(jsRound c.z : ℚ) - c.z| →
      round c = ⟨jsRound c.x, -jsRound c.x - jsRound c.z, jsRound c.z⟩) ∧
    (¬(|(jsRound c.x : ℚ) - c.x| > |(jsRound c.y : ℚ) - c.y| ∧
        |(jsRound c.x : ℚ) - c.x| > |(jsRound c.z : ℚ) - c.z|) →
      ¬(|(jsRound c.y : ℚ) - c.y| > |(jsRound c.z : ℚ) - c.z|) →
      round c = ⟨jsRound c.x, jsRound c.y, -jsRound c.x - jsRound c.y⟩) := by
  simp only [round]
  split_ifs with h1 h2
  · exact ⟨by dsimp only; ring, fun _ => rfl, fun hn _ => absurd h1 hn,
      fun hn _ => absurd h1 hn⟩
  · exact ⟨by dsimp only; ring, fun hx => absurd hx h1, fun _ _ => rfl,
      fun _ hn => absurd h2 hn⟩
  · exact ⟨by dsimp only; ring, fun hx => absurd hx h1, fun _ hy => absurd hy h2,
      fun _ _ => rfl⟩

/-- Witness for C4 (amended) at `(2/5, 1/10, 0)`, where the x-error is
strictly greatest. -/
theorem c4_round_amended_witness :
    round ⟨2 / 5, 1 / 10, 0⟩ = ⟨-jsRound ((1 : ℚ) / 10) - jsRound (0 : ℚ),
      jsRound ((1 : ℚ) / 10), jsRound (0 : ℚ)⟩ :=
  (c4_round_amended ⟨2 / 5, 1 / 10, 0⟩).2.1 (by
    constructor <;> with_unfolding_all decide)

/-! ### C5: offset conversions are mutual inverses -/

/-- C5.  For both layouts, converting an integer cube coordinate (with
the cube invariant `x+y+z = 0`) to offset coordinates and back is the
identity. -/
theorem c5_offset_roundtrip (c : Coord) (layout : Layout)
    (h : c.x + c.y + c.z = 0) :
    offsetToCube (cubeToOffset c layout) layout = c := by
  cases layout <;> (simp only [cubeToOffset, offsetToCube]; ext <;> dsimp <;> omega)

/-- Witness for C5 at `(3, -5, 2)` for both layouts. -/
theorem c5_offset_roundtrip_witness :
    ((3 : ℤ) + (-5) + 2 = 0) ∧
    offsetToCube (cubeToOffset ⟨3, -5, 2⟩ Layout.pointy) Layout.pointy = ⟨3, -5, 2⟩ ∧
    offsetToCube (cubeToOffset ⟨3, -5, 2⟩ Layout.flat) Layout.flat = ⟨3, -5, 2⟩ :=
  ⟨by decide, c5_offset_roundtrip ⟨3, -5, 2⟩ Layout.pointy (by decide),
    c5_offset_roundtrip ⟨3, -5, 2⟩ Layout.flat (by decide)⟩

/-! ### C6: the hex distance is a metric -/

/-- C6.  `distance` is the half-sum of the coordinate deviations; it is
symmetric, zero exactly on equal coordinates, satisfies the triangle
inequality, and takes integer values on integer cube coordinates. -/
theorem c6_distance_props (a b c : QCoord) (a' b' : Coord)
    (ha : a'.x + a'.y + a'.z = 0) (hb : b'.x + b'.y + b'.z = 0) :
    distance a b = (|a.x - b.x| + |a.y - b.y| + |a.z - b.z|) / 2 ∧
    distance a b = distance b a ∧
    (distance a b = 0 ↔ a = b) ∧
    distance a c ≤ distance a b + distance b c ∧
    ∃ n : ℤ, distance (coordQ a') (coordQ b') = (n : ℚ) :=
  ⟨rfl, distance_comm a b, distance_eq_zero_iff a b, distance_triangle a b c,
    distance_int a' b' ha hb⟩

/-- Witness for C6 at concrete coordinates. -/
theorem c6_distance_props_witness :
    ((1 : ℤ) + 2 + (-3) = 0) ∧ ((2 : ℤ) + (-2) + 0 = 0) ∧
    ∃ n : ℤ, distance (coordQ ⟨1, 2, -3⟩) (coordQ ⟨2, -2, 0⟩) = (n : ℚ) :=
  ⟨by decide, by decide,
    (c6_distance_props ⟨0, 0, 0⟩ ⟨0, 0, 0⟩ ⟨0, 0, 0⟩ ⟨1, 2, -3⟩ ⟨2, -2, 0⟩
      (by decide) (by decide)).2.2.2.2⟩

/-! ### C9: `findPath` with equal endpoints -/

theorem findPath_self (g : Grid) (s : Coord) (hf cf : Coord → Coord → ℚ) :
    findPath g s s hf cf = some [s] := by
  simp [findPath, equals]

/-- C9.  Whatever the grid and options, `findPath(grid, s, s, options)`
immediately returns the singleton path `[s]`, without consulting the
grid. -/
theorem c9_start_eq_end (g : Grid) (s : Coord) (hf cf : Coord → Coord → ℚ) :
    findPath g s s hf cf = some [s] :=
  findPath_self g s hf cf

/-! ### C8: rings and spirals -/

theorem dist_zero_decide (center d : Coord) :
    (decide (distance (coordQ center) (coordQ d) = 0)) = decide (d = center) := by
  rw [decide_eq_decide, distance_eq_zero_iff]
  constructor
  · intro h
    exact (coordQ_inj h).symm
  · rintro rfl
    rfl

theorem ring_zero_aux :
    ∀ (l : List (String × Cell)) (center : Coord),
      (∀ kv ∈ l, kv.1 = hash kv.2.coord) → (l.map Prod.fst).Nodup →
      (mapGet l (hash center)).isSome = true →
      (l.filter (fun kv => decide (kv.2.coord = center))).map
        (fun kv => kv.2.coord) = [center] := by
  intro l
  induction l with
  | nil =>
    intro center _ _ hmem
    simp [mapGet] at hmem
  | cons kv rest ih =>
    intro center hkey hnd hmem
    obtain ⟨k, cl⟩ := kv
    have hk0 : k = hash cl.coord := hkey (k, cl) (List.mem_cons_self _ _)
    by_cases hk : k = hash center
    · have hcoord : cl.coord = center := hash_injective (hk0 ▸ hk)
      have hrest : ∀ kv2 ∈ rest, (decide (kv2.2.coord = center)) = false := by
        intro kv2 hkv2
        by_contra hcon
        have heq : kv2.2.coord = center := of_decide_eq_true (by
          cases hdec : decide (kv2.2.coord = center)
          · exact absurd hdec hcon
          · rfl)
        have hk2 : kv2.1 = hash kv2.2.coord :=
          hkey kv2 (List.mem_cons_of_mem _ hkv2)
        have hkk : kv2.1 = k := by rw [hk2, heq, ← hk]
        have hnotin : k ∉ rest.map Prod.fst := by
          simp only [List.map_cons, List.nodup_cons] at hnd
          exact hnd.1
        exact hnotin (hkk ▸ List.mem_map_of_mem Prod.fst hkv2)
      have hfil : rest.filter (fun kv2 => decide (kv2.2.coord = center)) = [] :=
        List.filter_eq_nil_iff.mpr (fun a ha => by simp [hrest a ha])
      simp [List.filter_cons, hcoord, hfil]
    · have hcoord : cl.coord ≠ center := fun hc => hk (by rw [hk0, hc])
      have hmem2 : (mapGet rest (hash center)).isSome = true := by
        simpa [mapGet, hk] using hmem
      have hnd2 : (rest.map Prod.fst).Nodup := by
        simp only [List.map_cons, List.nodup_cons] at hnd
        exact hnd.2
      have hres := ih center (fun kv2 h2 => hkey kv2 (List.mem_cons_of_mem _ h2))
        hnd2 hmem2
      simpa [List.filter_cons, hcoord] using hres

/-- `getRing` at radius 0 on a well-keyed grid containing the center. -/
theorem getRing_zero (g : Grid) (center : Coord) (hkey : KeyInvariant g)
    (hnd : (g.cells.map Prod.fst).Nodup) (hmem : hasCell g center = true) :
    getRing g center 0 = [center] := by
  unfold getRing
  rw [List.filter_congr (fun kv _ => dist_zero_decide center kv.2.coord)]
  exact ring_zero_aux g.cells center hkey hnd (by
    unfold hasCell mapHas at hmem
    exact hmem)

theorem foldl_append_flatMap (f : Nat → List Coord) :
    ∀ (l : List Nat) (acc : List Coord),
      l.foldl (fun a r => a ++ f r) acc = acc ++ l.flatMap f := by
  intro l
  induction l with
  | nil => intro acc; simp
  | cons r rest ih => intro acc; simp [ih, List.append_assoc]

/-- C8 counterexample.  On a grid that does not contain the center
coordinate, `getRing(grid, center, 0)` is `[]`, not `[center]`: the
claim fails for "every grid and center coordinate". -/
theorem c8_ring_counterexample :
    getRing (createGrid 1 1 Layout.pointy []) ⟨5, -5, 0⟩ 0 = [] ∧
    getRing (createGrid 1 1 Layout.pointy []) ⟨5, -5, 0⟩ 0 ≠ [⟨5, -5, 0⟩] := by
  refine ⟨?_, ?_⟩ <;> with_unfolding_all decide

/-- C8 (amended).  The ring part needs the grid: if the grid stores
every cell under the hash of its coordinate with no duplicate keys
(true of every grid the API builds) and the grid contains the center,
then `getRing(grid, center, 0) = [center]`.  The spiral part holds
unconditionally: for every grid, center and `maxRadius`, `getSpiral`
is `[center]` followed by the rings at radii `1..maxRadius` in
increasing order. -/
theorem c8_ring_spiral_amended (g : Grid) (center : Coord) (maxRadius : Nat) :
    (KeyInvariant g → (g.cells.map Prod.fst).Nodup → hasCell g center = true →
      getRing g center 0 = [center]) ∧
    getSpiral g center maxRadius =
      center :: (List.range' 1 maxRadius).flatMap (fun r => getRing g center (r : ℚ)) := by
  refine ⟨fun hkey hnd hmem => getRing_zero g center hkey hnd hmem, ?_⟩
  unfold getSpiral
  rw [foldl_append_flatMap]
  rfl

/-- Witness for C8 (amended) on a concrete 2×1 grid: both the ring part
(hypotheses discharged by computation) and the spiral part. -/
theorem c8_ring_spiral_amended_witness :
    getRing (createGrid 2 1 Layout.pointy []) ⟨0, 0, 0⟩ 0 = [⟨0, 0, 0⟩] ∧
    getSpiral (createGrid 2 1 Layout.pointy []) ⟨0, 0, 0⟩ 1 =
      ⟨0, 0, 0⟩ :: (List.range' 1 1).flatMap
        (fun r => getRing (createGrid 2 1 Layout.pointy []) ⟨0, 0, 0⟩ (r : ℚ)) :=
  ⟨(c8_ring_spiral_amended (createGrid 2 1 Layout.pointy []) ⟨0, 0, 0⟩ 1).1
      (by decide) (by decide) (by decide),
    (c8_ring_spiral_amended (createGrid 2 1 Layout.pointy []) ⟨0, 0, 0⟩ 1).2⟩

/-! ### C2: breadth-first reachability

`Step grid a b` is one passable hop as the code generates it: `b` is one
of the six neighbors of `a` that exists in the grid and is passable
(`a` itself is unconstrained).  `HopPath grid s c n` is an `n`-hop
passable path from `s` to `c`. -/

def Step (grid : Grid) (a b : Coord) : Prop := b ∈ getNeighbors grid a true

instance (grid : Grid) (a b : Coord) : Decidable (Step grid a b) :=
  inferInstanceAs (Decidable (b ∈ getNeighbors grid a true))

inductive HopPath (grid : Grid) (s : Coord) : Coord → Nat → Prop where
  | refl : HopPath grid s s 0
  | step {b c : Coord} {n : Nat} :
      HopPath grid s b n → Step grid b c → HopPath grid s c (n + 1)

theorem hopPath_zero {grid : Grid} {s c : Coord} (h : HopPath grid s c 0) : c = s := by
  cases h
  rfl

/-- Reachable within `j` hops. -/
def ReachLE (grid : Grid) (s c : Coord) (j : Nat) : Prop :=
  ∃ n, n ≤ j ∧ HopPath grid s c n

/-- Reachable in exactly `j` hops and no fewer. -/
def MinHop (grid : Grid) (s c : Coord) (j : Nat) : Prop :=
  HopPath grid s c j ∧ ∀ m, m < j → ¬ HopPath grid s c m

theorem exists_minHop {grid : Grid} {s c : Coord} :
    ∀ {n : Nat}, HopPath grid s c n → ∃ m, m ≤ n ∧ MinHop grid s c m := by
  intro n
  induction n using Nat.strong_induction_on with
  | _ n ih =>
    intro h
    by_cases hex : ∃ m, m < n ∧ HopPath grid s c m
    · obtain ⟨m, hm, hp⟩ := hex
      obtain ⟨m', hm', hmin⟩ := ih m hm hp
      exact ⟨m', le_trans hm' (le_of_lt hm), hmin⟩
    · exact ⟨n, le_refl n, h, fun m hm hp => hex ⟨m, hm, hp⟩⟩

theorem reachInsert_fold_spec (vis₀ : List String) :
    ∀ (ns : List Coord) (st : List String × List Coord),
      (∀ k, k ∈ st.1 ↔ k ∈ vis₀ ∨ ∃ c ∈ st.2, hash c = k) →
      (∀ c ∈ st.2, hash c ∉ vis₀) →
      st.2.Nodup →
      (∀ k, k ∈ (ns.foldl reachInsert st).1 ↔
          k ∈ vis₀ ∨ ∃ c ∈ (ns.foldl reachInsert st).2, hash c = k) ∧
      (∀ c ∈ (ns.foldl reachInsert st).2, hash c ∉ vis₀) ∧
      (ns.foldl reachInsert st).2.Nodup ∧
      (∀ c ∈ st.2, c ∈ (ns.foldl reachInsert st).2) ∧
      (∀ c ∈ (ns.foldl reachInsert st).2, c ∈ st.2 ∨ c ∈ ns) ∧
      (∀ n ∈ ns, hash n ∉ vis₀ → n ∈ (ns.foldl reachInsert st).2) := by
  intro ns
  induction ns with
  | nil =>
    intro st h1 h2 h3
    refine ⟨h1, h2, h3, fun c hc => hc, fun c hc => Or.inl hc, by simp⟩
  | cons n rest ih =>
    intro st h1 h2 h3
    by_cases hc : st.1.contains (hash n) = true
    · have hst : reachInsert st n = st := by
        unfold reachInsert
        rw [if_pos hc]
      have hmem : hash n ∈ st.1 := by
        simpa using hc
      have hn_in : hash n ∈ vis₀ ∨ n ∈ st.2 := by
        rcases (h1 (hash n)).mp hmem with h | ⟨c, hcm, hch⟩
        · exact Or.inl h
        · exact Or.inr (hash_injective hch ▸ hcm)
      obtain ⟨g1, g2, g3, g4, g5, g6⟩ := ih st h1 h2 h3
      rw [List.foldl_cons, hst]
      refine ⟨g1, g2, g3, g4, ?_, ?_⟩
      · intro c hcm
        rcases g5 c hcm with h | h
        · exact Or.inl h
        · exact Or.inr (List.mem_cons_of_mem _ h)
      · intro m hm hnv
        rcases List.mem_cons.mp hm with rfl | hm2
        · rcases hn_in with h | h
          · exact absurd h hnv
          · exact g4 m h
        · exact g6 m hm2 hnv
    · have hst : reachInsert st n = (hash n :: st.1, st.2 ++ [n]) := by
        unfold reachInsert
        rw [if_neg hc]
      have hnotmem : hash n ∉ st.1 := by
        intro hmm
        exact hc (by simpa using hmm)
      have hnv : hash n ∉ vis₀ := fun hv => hnotmem ((h1 (hash n)).mpr (Or.inl hv))
      have hnl : n ∉ st.2 := fun hl =>
        hnotmem ((h1 (hash n)).mpr (Or.inr ⟨n, hl, rfl⟩))
      have h1' : ∀ k, k ∈ (hash n :: st.1) ↔
          k ∈ vis₀ ∨ ∃ c ∈ st.2 ++ [n], hash c = k := by
        intro k
        constructor
        · intro hk
          rcases List.mem_cons.mp hk with rfl | hk2
          · exact Or.inr ⟨n, List.mem_append.mpr (Or.inr (List.mem_singleton.mpr rfl)),
              rfl⟩
          · rcases (h1 k).mp hk2 with h | ⟨c, hcm, hch⟩
            · exact Or.inl h
            · exact Or.inr ⟨c, List.mem_append.mpr (Or.inl hcm), hch⟩
        · intro hk
          rcases hk with h | ⟨c, hcm, hch⟩
          · exact List.mem_cons_of_mem _ ((h1 k).mpr (Or.inl h))
          · rcases List.mem_append.mp hcm with h' | h'
            · exact List.mem_cons_of_mem _ ((h1 k).mpr (Or.inr ⟨c, h', hch⟩))
            · rw [List.mem_singleton] at h'
              subst h'
              exact List.mem_cons.mpr (Or.inl hch.symm)
      have h2' : ∀ c ∈ st.2 ++ [n], hash c ∉ vis₀ := by
        intro c hcm
        rcases List.mem_append.mp hcm with h | h
        · exact h2 c h
        · simp only [List.mem_singleton] at h
          exact h ▸ hnv
      have h3' : (st.2 ++ [n]).Nodup := by
        rw [List.nodup_append]
        exact ⟨h3, List.nodup_singleton n, by simpa using hnl⟩
      obtain ⟨g1, g2, g3, g4, g5, g6⟩ :=
        ih (hash n :: st.1, st.2 ++ [n]) h1' h2' h3'
      rw [List.foldl_cons, hst]
      refine ⟨g1, g2, g3, ?_, ?_, ?_⟩
      · intro c hcm
        exact g4 c (List.mem_append.mpr (Or.inl hcm))
      · intro c hcm
        rcases g5 c hcm with h | h
        · rcases List.mem_append.mp h with h' | h'
          · exact Or.inl h'
          · simp only [List.mem_singleton] at h'
            exact Or.inr (h' ▸ List.mem_cons_self _ _)
        · exact Or.inr (List.mem_cons_of_mem _ h)
      · intro m hm hmv
        rcases List.mem_cons.mp hm with rfl | hm2
        · exact g4 m (List.mem_append.mpr (Or.inr (List.mem_singleton.mpr rfl)))
        · exact g6 m hm2 hmv

theorem reachInsert_fold_mono :
    ∀ (ns : List Coord) (st : List String × List Coord),
      ∀ m ∈ st.2, m ∈ (ns.foldl reachInsert st).2 := by
  intro ns
  induction ns with
  | nil => intro st m hm; exact hm
  | cons n rest ih =>
    intro st m hm
    rw [List.foldl_cons]
    refine ih (reachInsert st n) m ?_
    unfold reachInsert
    split
    · exact hm
    · exact List.mem_append.mpr (Or.inl hm)

theorem reachStep_fold_mono (grid : Grid) :
    ∀ (prev : List Coord) (st : List String × List Coord),
      ∀ m ∈ st.2, m ∈ (prev.foldl (reachStep grid) st).2 := by
  intro prev
  induction prev with
  | nil => intro st m hm; exact hm
  | cons b rest ih =>
    intro st m hm
    rw [List.foldl_cons]
    exact ih (reachStep grid st b) m (reachInsert_fold_mono _ st m hm)

theorem reachStep_fold_spec (grid : Grid) (vis₀ : List String) :
    ∀ (prev : List Coord) (st : List String × List Coord),
      (∀ k, k ∈ st.1 ↔ k ∈ vis₀ ∨ ∃ c ∈ st.2, hash c = k) →
      (∀ c ∈ st.2, hash c ∉ vis₀) →
      st.2.Nodup →
      (∀ k, k ∈ (prev.foldl (reachStep grid) st).1 ↔
          k ∈ vis₀ ∨ ∃ c ∈ (prev.foldl (reachStep grid) st).2, hash c = k) ∧
      (∀ c ∈ (prev.foldl (reachStep grid) st).2, hash c ∉ vis₀) ∧
      (prev.foldl (reachStep grid) st).2.Nodup ∧
      (∀ c ∈ (prev.foldl (reachStep grid) st).2,
        c ∈ st.2 ∨ ∃ b ∈ prev, Step grid b c) ∧
      (∀ b ∈ prev, ∀ c, Step grid b c → hash c ∉ vis₀ →
        c ∈ (prev.foldl (reachStep grid) st).2) := by
  intro prev
  induction prev with
  | nil =>
    intro st h1 h2 h3
    refine ⟨h1, h2, h3, fun c hc => Or.inl hc, by simp⟩
  | cons b rest ih =>
    intro st h1 h2 h3
    obtain ⟨g1, g2, g3, g4, g5, g6⟩ :=
      reachInsert_fold_spec vis₀ (getNeighbors grid b true) st h1 h2 h3
    have hbstep : reachStep grid st b = (getNeighbors grid b true).foldl reachInsert st := rfl
    obtain ⟨f1, f2, f3, f4, f5⟩ := ih (reachStep grid st b) (hbstep ▸ g1) (hbstep ▸ g2)
      (hbstep ▸ g3)
    rw [List.foldl_cons]
    refine ⟨f1, f2, f3, ?_, ?_⟩
    · intro c hcm
      rcases f4 c hcm with h | ⟨b', hb', hstep⟩
      · rw [hbstep] at h
        rcases g5 c h with h' | h'
        · exact Or.inl h'
        · exact Or.inr ⟨b, List.mem_cons_self _ _, h'⟩
      · exact Or.inr ⟨b', List.mem_cons_of_mem _ hb', hstep⟩
    · intro b' hb' c hstep hcv
      rcases List.mem_cons.mp hb' with rfl | hb2
      · -- processed first: inserted by the inner fold, kept by monotonicity
        have hcin : c ∈ (reachStep grid st b').2 := hbstep ▸ g6 c hstep hcv
        -- monotone through the remaining outer fold
        have hmono : ∀ m ∈ (reachStep grid st b').2,
            m ∈ (rest.foldl (reachStep grid) (reachStep grid st b')).2 := by
          intro m hm
          -- follows since each reachStep only appends to the layer:
          -- use f4-style origin? instead prove with a generic monotone lemma below
          exact reachStep_fold_mono grid rest (reachStep grid st b') m hm
        exact hmono c hcin
      · exact f5 b' hb2 c hstep hcv

theorem reachLayer_spec (grid : Grid) (visited : List String) (prev : List Coord) :
    (∀ k, k ∈ (reachLayer grid visited prev).1 ↔
        k ∈ visited ∨ ∃ c ∈ (reachLayer grid visited prev).2, hash c = k) ∧
    (∀ c ∈ (reachLayer grid visited prev).2, hash c ∉ visited) ∧
    (reachLayer grid visited prev).2.Nodup ∧
    (∀ c ∈ (reachLayer grid visited prev).2, ∃ b ∈ prev, Step grid b c) ∧
    (∀ b ∈ prev, ∀ c, Step grid b c → hash c ∉ visited →
      c ∈ (reachLayer grid visited prev).2) := by
  obtain ⟨g1, g2, g3, g4, g5⟩ := reachStep_fold_spec grid visited prev (visited, [])
    (fun k => by simp) (by simp) List.nodup_nil
  refine ⟨g1, g2, g3, ?_, g5⟩
  intro c hcm
  rcases g4 c hcm with h | h
  · exact absurd h (List.not_mem_nil c)
  · exact h

theorem reachLayers_spec (grid : Grid) (s : Coord) :
    ∀ (k j : Nat) (visited : List String) (prev : List Coord),
      (∀ kk, kk ∈ visited ↔ ∃ c, hash c = kk ∧ ReachLE grid s c j) →
      (∀ c, c ∈ prev ↔ MinHop grid s c j) →
      (reachLayers grid k visited prev).length = k ∧
      (∀ i, i < k → ∀ c, c ∈ (reachLayers grid k visited prev).getD i [] ↔
        MinHop grid s c (j + i + 1)) := by
  intro k
  induction k with
  | zero =>
    intro j visited prev _ _
    exact ⟨rfl, fun i hi => absurd hi (Nat.not_lt_zero i)⟩
  | succ k ih =>
    intro j visited prev hvis hprev
    obtain ⟨g1, g2, g3, g4, g5⟩ := reachLayer_spec grid visited prev
    set L := (reachLayer grid visited prev).2 with hL
    set vis' := (reachLayer grid visited prev).1 with hvis'
    have hlayer : ∀ c, c ∈ L ↔ MinHop grid s c (j + 1) := by
      intro c
      constructor
      · intro hc
        obtain ⟨b, hb, hstep⟩ := g4 c hc
        have hbmin : MinHop grid s b j := (hprev b).mp hb
        refine ⟨HopPath.step hbmin.1 hstep, ?_⟩
        intro m hm hp
        have : hash c ∈ visited :=
          (hvis (hash c)).mpr ⟨c, rfl, m, Nat.lt_succ_iff.mp hm, hp⟩
        exact g2 c hc this
      · intro ⟨hp, hmin⟩
        cases hp with
        | step hpb hstep =>
          rename_i b
          have hbmin : MinHop grid s b j := by
            refine ⟨hpb, ?_⟩
            intro m hm hpm
            exact hmin (m + 1) (by omega) (HopPath.step hpm hstep)
          have hbprev : b ∈ prev := (hprev b).mpr hbmin
          have hcv : hash c ∉ visited := by
            intro hcvis
            obtain ⟨c', hc', hr⟩ := (hvis (hash c)).mp hcvis
            obtain ⟨m, hm, hpm⟩ := (hash_injective hc' ▸ hr : ReachLE grid s c j)
            exact hmin m (by omega) hpm
          exact g5 b hbprev c hstep hcv
    have hvis2 : ∀ kk, kk ∈ vis' ↔ ∃ c, hash c = kk ∧ ReachLE grid s c (j + 1) := by
      intro kk
      rw [g1 kk]
      constructor
      · intro h
        rcases h with h | ⟨c, hcm, hch⟩
        · obtain ⟨c, hch, m, hm, hp⟩ := (hvis kk).mp h
          exact ⟨c, hch, m, by omega, hp⟩
        · exact ⟨c, hch, j + 1, le_refl _, ((hlayer c).mp hcm).1⟩
      · rintro ⟨c, hch, m, hm, hp⟩
        by_cases hex : ∃ m', m' ≤ j ∧ HopPath grid s c m'
        · obtain ⟨m', hm', hp'⟩ := hex
          exact Or.inl ((hvis kk).mpr ⟨c, hch, m', hm', hp'⟩)
        · have hm1 : m = j + 1 := by
            rcases Nat.lt_or_ge m (j + 1) with h' | h'
            · exact absurd ⟨m, Nat.lt_succ_iff.mp h', hp⟩ hex
            · omega
          subst hm1
          refine Or.inr ⟨c, (hlayer c).mpr ⟨hp, ?_⟩, hch⟩
          intro m' hm' hp'
          exact hex ⟨m', Nat.lt_succ_iff.mp hm', hp'⟩
    obtain ⟨ih1, ih2⟩ := ih (j + 1) vis' L hvis2 hlayer
    have hunfold : reachLayers grid (k + 1) visited prev =
        L :: reachLayers grid k vis' L := rfl
    rw [hunfold]
    refine ⟨by simp [ih1], ?_⟩
    intro i hi c
    cases i with
    | zero => simpa using hlayer c
    | succ i =>
      have := ih2 i (by omega) c
      simpa [Nat.add_assoc, Nat.add_comm, Nat.add_left_comm] using this

/-- C2.  `getReachable` returns exactly the coordinates whose passable
shortest hop count from `start` is at most `d`; concretely the result
is the concatenation `[start] ++ layer 1 ++ … ++ layer d` where layer
`i` holds exactly the coordinates of minimal hop count `i`, so `start`
is always the first element. -/
theorem c2_reachable_exact (grid : Grid) (s : Coord) (d : Nat) :
    (∀ c, c ∈ getReachable grid s d ↔ ∃ n, n ≤ d ∧ HopPath grid s c n) ∧
    (getReachable grid s d).head? = some s ∧
    ∃ layers : List (List Coord),
      getReachable grid s d = ([s] :: layers).flatten ∧
      layers.length = d ∧
      ∀ i, i < d → ∀ c, c ∈ layers.getD i [] ↔
        (HopPath grid s c (i + 1) ∧ ∀ m, m < i + 1 → ¬ HopPath grid s c m) := by
  have hvis0 : ∀ kk, kk ∈ [hash s] ↔ ∃ c, hash c = kk ∧ ReachLE grid s c 0 := by
    intro kk
    constructor
    · intro h
      rw [List.mem_singleton] at h
      exact ⟨s, h.symm ▸ rfl, 0, le_refl 0, HopPath.refl⟩
    · rintro ⟨c, hch, m, hm, hp⟩
      have hm0 : m = 0 := Nat.le_zero.mp hm
      subst hm0
      rw [hopPath_zero hp] at hch
      exact List.mem_singleton.mpr hch.symm
  have hprev0 : ∀ c, c ∈ [s] ↔ MinHop grid s c 0 := by
    intro c
    constructor
    · intro h
      rw [List.mem_singleton] at h
      subst h
      exact ⟨HopPath.refl, fun m hm => absurd hm (Nat.not_lt_zero m)⟩
    · intro ⟨hp, _⟩
      exact List.mem_singleton.mpr (hopPath_zero hp)
  obtain ⟨hlen, hlayers⟩ := reachLayers_spec grid s d 0 [hash s] [s] hvis0 hprev0
  set Ls := reachLayers grid d [hash s] [s] with hLs
  have hunfold : getReachable grid s d = ([s] :: Ls).flatten := rfl
  have hmem_flat : ∀ c, c ∈ getReachable grid s d ↔
      c = s ∨ ∃ i, i < d ∧ c ∈ Ls.getD i [] := by
    intro c
    rw [hunfold]
    constructor
    · intro h
      rcases List.mem_flatten.mp h with ⟨l, hl, hcl⟩
      rcases List.mem_cons.mp hl with rfl | hl2
      · exact Or.inl (List.mem_singleton.mp hcl)
      · obtain ⟨i, hi, hget⟩ := List.mem_iff_getElem.mp hl2
        refine Or.inr ⟨i, by omega, ?_⟩
        rw [List.getD_eq_getElem?_getD, List.getElem?_eq_getElem hi, Option.getD_some,
          hget]
        exact hcl
    · intro h
      rcases h with rfl | ⟨i, hi, hget⟩
      · exact List.mem_flatten.mpr ⟨[c], List.mem_cons_self _ _, List.mem_singleton.mpr rfl⟩
      · have hi' : i < Ls.length := by omega
        refine List.mem_flatten.mpr ⟨Ls[i], List.mem_cons_of_mem _ (List.getElem_mem hi'), ?_⟩
        rw [List.getD_eq_getElem?_getD, List.getElem?_eq_getElem hi', Option.getD_some]
          at hget
        exact hget
  refine ⟨?_, ?_, Ls, hunfold, hlen, ?_⟩
  · intro c
    rw [hmem_flat c]
    constructor
    · intro h
      rcases h with rfl | ⟨i, hi, hget⟩
      · exact ⟨0, Nat.zero_le d, HopPath.refl⟩
      · obtain ⟨hp, _⟩ := (hlayers i hi c).mp hget
        exact ⟨0 + i + 1, by omega, hp⟩
    · rintro ⟨n, hn, hp⟩
      obtain ⟨m, hm, hmin⟩ := exists_minHop hp
      cases m with
      | zero => exact Or.inl (hopPath_zero hmin.1)
      | succ i =>
        refine Or.inr ⟨i, by omega, (hlayers i (by omega) c).mpr ?_⟩
        have : 0 + i + 1 = i + 1 := by omega
        rw [this]
        exact hmin
  · rw [hunfold]
    rfl
  · intro i hi c
    have h := hlayers i hi c
    have e : 0 + i + 1 = i + 1 := by omega
    rw [e] at h
    exact h

/-- Witness for C2: a one-hop neighbor is reachable with budget 1 on a
concrete 2×1 grid. -/
theorem c2_reachable_exact_witness :
    (⟨1, -1, 0⟩ : Coord) ∈ getReachable (createGrid 2 1 Layout.pointy []) ⟨0, 0, 0⟩ 1 :=
  ((c2_reachable_exact (createGrid 2 1 Layout.pointy []) ⟨0, 0, 0⟩ 1).1 ⟨1, -1, 0⟩).mpr
    ⟨1, le_refl 1, HopPath.step HopPath.refl (by decide)⟩

/-! ### C1: A* pathfinding — paths, queue and step lemmas -/

theorem equals_iff (a b : Coord) : equals a b = true ↔ a = b := by
  unfold equals
  constructor
  · intro h
    simp only [Bool.and_eq_true, beq_iff_eq] at h
    ext <;> [exact h.1.1; exact h.1.2; exact h.2]
  · rintro rfl
    simp

/-- A valid passable path list: starts at `s`, ends at `e`, every link a
passable hop. -/
def ValidPath (grid : Grid) (s e : Coord) (p : List Coord) : Prop :=
  p.head? = some s ∧ p.getLast? = some e ∧ List.Chain' (Step grid) p

theorem validPath_extend {grid : Grid} {s : Coord} :
    ∀ (p : List Coord) (a : Coord), p.head? = some a → List.Chain' (Step grid) p →
      ∀ b, p.getLast? = some b →
      ∀ k, HopPath grid s a k → HopPath grid s b (k + (p.length - 1)) := by
  intro p
  induction p with
  | nil => intro a ha; simp at ha
  | cons x t ih =>
    intro a ha hchain b hb k hk
    have hxa : a = x := by
      have := (by simpa using ha : x = a)
      exact this.symm
    subst hxa
    cases t with
    | nil =>
      have hab : b = a := by
        have := (by simpa using hb : a = b)
        exact this.symm
      subst hab
      simpa using hk
    | cons c t' =>
      have hstep : Step grid a c := (List.chain'_cons.mp hchain).1
      have hchain' : List.Chain' (Step grid) (c :: t') := (List.chain'_cons.mp hchain).2
      have hb' : (c :: t').getLast? = some b := by
        rw [← hb]
        exact (List.getLast?_cons_cons ..).symm
      have hrec := ih c rfl hchain' b hb' (k + 1) (HopPath.step hk hstep)
      have harith : k + 1 + ((c :: t').length - 1) = k + ((a :: c :: t').length - 1) := by
        simp only [List.length_cons]
        omega
      rwa [harith] at hrec

theorem hopPath_of_validPath {grid : Grid} {s e : Coord} {p : List Coord}
    (h : ValidPath grid s e p) : HopPath grid s e (p.length - 1) := by
  obtain ⟨h1, h2, h3⟩ := h
  have := validPath_extend p s h1 h3 e h2 0 HopPath.refl
  simpa using this

theorem validPath_of_hopPath {grid : Grid} {s : Coord} :
    ∀ {c : Coord} {n : Nat}, HopPath grid s c n →
      ∃ p, ValidPath grid s c p ∧ p.length = n + 1 := by
  intro c n h
  induction h with
  | refl => exact ⟨[s], ⟨rfl, rfl, List.chain'_singleton s⟩, rfl⟩
  | step hb hstep ih =>
    rename_i b c' n'
    obtain ⟨p, ⟨hh, hl, hc⟩, hlen⟩ := ih
    have hpne : p ≠ [] := by
      intro hp
      rw [hp] at hh
      exact absurd hh (by simp)
    refine ⟨p ++ [c'], ⟨?_, ?_, ?_⟩, by simp [hlen]⟩
    · rwa [List.head?_append_of_ne_nil _ hpne]
    · simp
    · rw [List.chain'_append]
      refine ⟨hc, List.chain'_singleton c', ?_⟩
      intro x hx y hy
      have hyc : c' = y := by simpa using hy
      subst hyc
      rw [hl] at hx
      have hxb : b = x := by simpa using hx
      subst hxb
      exact hstep

theorem validPath_length_pos {grid : Grid} {s e : Coord} {p : List Coord}
    (h : ValidPath grid s e p) : 1 ≤ p.length := by
  obtain ⟨h1, _, _⟩ := h
  cases p with
  | nil => exact absurd h1 (by simp)
  | cons a t => simp

/-- Characterization of `getNeighbors` membership. -/
theorem step_iff (grid : Grid) (b c : Coord) :
    Step grid b c ↔ (∃ d ∈ DIRECTIONS, c = add b d) ∧ hasCell grid c = true ∧
      isPassable grid c = true := by
  unfold Step getNeighbors
  rw [List.mem_filter]
  simp only [List.mem_map, Bool.not_true, Bool.false_or, Bool.and_eq_true]
  constructor
  · rintro ⟨⟨d, hd, rfl⟩, h2, h3⟩
    exact ⟨⟨d, hd, rfl⟩, h2, h3⟩
  · rintro ⟨⟨d, hd, rfl⟩, h2, h3⟩
    exact ⟨⟨d, hd, rfl⟩, h2, h3⟩

theorem step_add {grid : Grid} {b c : Coord} (h : Step grid b c) :
    ∃ d ∈ DIRECTIONS, c = add b d :=
  ((step_iff grid b c).mp h).1

/-- A single hop moves hex distance exactly 1. -/
theorem dist_add_dir (b : Coord) : ∀ d ∈ DIRECTIONS,
    distance (coordQ b) (coordQ (add b d)) = 1 := by
  intro d hd
  fin_cases hd <;>
    (unfold distance coordQ add; push_cast; norm_num)

/-- The heuristic shrinks by at most 1 along a hop. -/
theorem dist_step_le {grid : Grid} {b c : Coord} (e : Coord) (h : Step grid b c) :
    distance (coordQ b) (coordQ e) ≤ 1 + distance (coordQ c) (coordQ e) := by
  obtain ⟨d, hd, rfl⟩ := step_add h
  have htri := distance_triangle (coordQ b) (coordQ (add b d)) (coordQ e)
  rw [dist_add_dir b d hd] at htri
  linarith

/-! Queue lemmas -/

theorem pqEnqueue_sorted (items : List PQEntry) (c : Coord) (p : ℚ) :
    (pqEnqueue items c p).Pairwise pqLe :=
  List.sorted_insertionSort pqLe (items ++ [PQEntry.mk c p])

theorem mem_pqEnqueue {en : PQEntry} {items : List PQEntry} {c : Coord} {p : ℚ} :
    en ∈ pqEnqueue items c p ↔ en ∈ items ∨ en = ⟨c, p⟩ := by
  unfold pqEnqueue
  have hperm := List.perm_insertionSort pqLe (items ++ [PQEntry.mk c p])
  rw [hperm.mem_iff]
  simp

theorem length_pqEnqueue (items : List PQEntry) (c : Coord) (p : ℚ) :
    (pqEnqueue items c p).length = items.length + 1 := by
  unfold pqEnqueue
  have hperm := List.perm_insertionSort pqLe (items ++ [PQEntry.mk c p])
  rw [hperm.length_eq]
  simp

theorem head_min_of_sorted {en : PQEntry} {rest : List PQEntry}
    (h : (en :: rest).Pairwise pqLe) :
    ∀ en2 ∈ rest, en.priority ≤ en2.priority := by
  intro en2 hen2
  exact (List.pairwise_cons.mp h).1 en2 hen2

theorem add_ne_self (b : Coord) : ∀ d ∈ DIRECTIONS, add b d ≠ b := by
  intro d hd hc
  have hx : b.x + d.x = b.x := congrArg Coord.x hc
  have hy : b.y + d.y = b.y := congrArg Coord.y hc
  fin_cases hd <;> simp at hx hy

/-! ### C1: the A* loop invariant -/

/-- The invariant of `findPath`'s main loop (with the default heuristic
and the default unit cost function), relating the frontier, the cost
map and the predecessor map to actual passable paths of the grid. -/
structure AInv (grid : Grid) (s e : Coord) (st : AState) : Prop where
  sorted : st.frontier.Pairwise pqLe
  cost_start : mapGet st.costSoFar (hash s) = some 0
  cost_real : ∀ k v, mapGet st.costSoFar k = some v →
    ∃ c n, hash c = k ∧ HopPath grid s c n ∧ (n : ℚ) = v
  front_has_cost : ∀ en ∈ st.frontier, ∃ v, mapGet st.costSoFar (hash en.item) = some v
  goal_entry_ge : ∀ en ∈ st.frontier, hash en.item = hash e →
    ∃ v, mapGet st.costSoFar (hash e) = some v ∧ v ≤ en.priority
  node_inv : ∀ c v, mapGet st.costSoFar (hash c) = some v →
    (∃ en ∈ st.frontier, en.item = c ∧
      en.priority ≤ v + distance (coordQ c) (coordQ e)) ∨
    (∀ n ∈ getNeighbors grid c true, ∃ v', mapGet st.costSoFar (hash n) = some v' ∧
      v' ≤ v + 1)
  goal_open : ∀ v, mapGet st.costSoFar (hash e) = some v →
    ∃ en ∈ st.frontier, hash en.item = hash e
  cf_start : mapGet st.cameFrom (hash s) = some none
  cf_keys_iff : ∀ k, (mapGet st.cameFrom k).isSome = (mapGet st.costSoFar k).isSome
  cf_edge : ∀ k q, mapGet st.cameFrom k = some (some q) →
    ∃ c vk vq, hash c = k ∧ Step grid q c ∧
      mapGet st.costSoFar k = some vk ∧
      mapGet st.costSoFar (hash q) = some vq ∧ vq + 1 ≤ vk
  cf_none : ∀ k, mapGet st.cameFrom k = some none → k = hash s
  cost_keys : ∀ k, (mapGet st.costSoFar k).isSome = true →
    k = hash s ∨ k ∈ grid.cells.map Prod.fst
  cost_bound : ∀ k v, mapGet st.costSoFar k = some v →
    v + 1 ≤ (st.costSoFar.length : ℚ)
  len_eq : st.cameFrom.length = st.costSoFar.length
  cost_nodup : (st.costSoFar.map Prod.fst).Nodup

/-- At every state satisfying the invariant, every `n`-hop path to `c`
yields either a recorded cost at `c` of at most `n`, or a frontier
entry whose priority is at most `n` plus the heuristic at `c`. -/
theorem astar_use {grid : Grid} {s e : Coord} {st : AState}
    (inv : AInv grid s e st) :
    ∀ {c : Coord} {n : Nat}, HopPath grid s c n →
      (∃ v, mapGet st.costSoFar (hash c) = some v ∧ v ≤ (n : ℚ)) ∨
      (∃ en ∈ st.frontier,
        en.priority ≤ (n : ℚ) + distance (coordQ c) (coordQ e)) := by
  intro c n hp
  induction hp with
  | refl => exact Or.inl ⟨0, inv.cost_start, by norm_num⟩
  | step hpb hstep ih =>
    rename_i b c' n'
    have hdist := dist_step_le e hstep
    rcases ih with ⟨v, hv, hvn⟩ | ⟨en, hmem, hpr⟩
    · rcases inv.node_inv b v hv with ⟨en, hmem, hitem, hpr⟩ | hclosed
      · refine Or.inr ⟨en, hmem, ?_⟩
        calc en.priority ≤ v + distance (coordQ b) (coordQ e) := hitem ▸ hpr
          _ ≤ (n' : ℚ) + (1 + distance (coordQ c') (coordQ e)) := by
              have := hvn
              linarith
          _ = ((n' + 1 : ℕ) : ℚ) + distance (coordQ c') (coordQ e) := by
              push_cast
              ring
      · obtain ⟨v', hv', hle⟩ := hclosed c' hstep
        refine Or.inl ⟨v', hv', ?_⟩
        push_cast
        linarith
    · refine Or.inr ⟨en, hmem, ?_⟩
      calc en.priority ≤ (n' : ℚ) + distance (coordQ b) (coordQ e) := hpr
        _ ≤ (n' : ℚ) + (1 + distance (coordQ c') (coordQ e)) := by linarith
        _ = ((n' + 1 : ℕ) : ℚ) + distance (coordQ c') (coordQ e) := by
            push_cast
            ring

/-- Correctness of the predecessor walk: starting from a coordinate with
recorded integer cost `m` and enough fuel, the walk prepends a valid
path from `s` to that coordinate of at most `m + 1` cells. -/
theorem reconstruct_spec (grid : Grid) (s e : Coord) (st : AState)
    (inv : AInv grid s e st) :
    ∀ (m : Nat), ∀ (fuel : Nat) (c : Coord) (acc : List Coord) (v : ℚ),
      mapGet st.costSoFar (hash c) = some v → v = (m : ℚ) → m < fuel →
      ∃ pre : List Coord,
        reconstructPath st.cameFrom (hash s) fuel c acc = pre ++ acc ∧
        pre.head? = some s ∧ pre.getLast? = some c ∧
        List.Chain' (Step grid) pre ∧ pre.length ≤ m + 1 := by
  intro m
  induction m using Nat.strong_induction_on with
  | _ m ih =>
    intro fuel c acc v hv hvm hfuel
    obtain ⟨f, rfl⟩ : ∃ f, fuel = f + 1 := ⟨fuel - 1, by omega⟩
    by_cases hcs : hash c = hash s
    · have hc : c = s := hash_injective hcs
      refine ⟨[c], ?_, by rw [hc]; rfl, rfl, List.chain'_singleton c, by simp⟩
      unfold reconstructPath
      rw [if_pos hcs]
      rfl
    · have hsome : (mapGet st.cameFrom (hash c)).isSome = true := by
        rw [inv.cf_keys_iff (hash c), hv]
        rfl
      obtain ⟨ov, hov⟩ := Option.isSome_iff_exists.mp hsome
      cases ov with
      | none => exact absurd (inv.cf_none (hash c) hov) hcs
      | some q =>
        obtain ⟨c', vk, vq, hc', hstepq, hvk, hvq, hle⟩ :=
          inv.cf_edge (hash c) q hov
        have hcc : c' = c := hash_injective hc'
        rw [hcc] at hstepq
        have hvkv : vk = v := by
          rw [hv] at hvk
          injection hvk with h
          exact h.symm
        obtain ⟨cq, nq, hcq, hpq, hnq⟩ := inv.cost_real (hash q) vq hvq
        have hcqq : cq = q := hash_injective hcq
        rw [hcqq] at hpq
        have hnqm : nq + 1 ≤ m := by
          have : vq + 1 ≤ (m : ℚ) := by rw [← hvm, ← hvkv]; exact hle
          rw [← hnq] at this
          exact_mod_cast this
        obtain ⟨pre', heq', hh', hl', hch', hlen'⟩ :=
          ih nq (by omega) f q (c :: acc) vq hvq hnq.symm (by omega)
        refine ⟨pre' ++ [c], ?_, ?_, by simp, ?_, ?_⟩
        · unfold reconstructPath
          rw [if_neg hcs, hov]
          show reconstructPath st.cameFrom (hash s) f q (c :: acc) = _
          rw [heq']
          simp
        · have hne : pre' ≠ [] := by
            intro hp
            rw [hp] at hh'
            exact absurd hh' (by simp)
          rwa [List.head?_append_of_ne_nil _ hne]
        · rw [List.chain'_append]
          refine ⟨hch', List.chain'_singleton c, ?_⟩
          intro x hx y hy
          have hyc : c = y := by simpa using hy
          subst hyc
          rw [hl'] at hx
          have hxq : q = x := by simpa using hx
          subst hxq
          exact hstepq
        · simp only [List.length_append, List.length_singleton]
          omega

/-! ### C1: the termination measure -/

/-- Per-key potential: an unset key can still be first-set and then
strictly improved; a set key can only decrease. -/
def potOf (B : Nat) (cost : List (String × ℚ)) (k : String) : Nat :=
  match mapGet cost k with
  | none => B + 1
  | some v => (⌊v⌋).toNat

/-- The loop's potential: summed per-key potential over the start key
and all grid keys. -/
def Phi (grid : Grid) (s : Coord) (st : AState) : Nat :=
  ((hash s :: grid.cells.map Prod.fst).map
    (potOf (grid.cells.length + 1) st.costSoFar)).sum

/-- The termination measure: potential plus frontier length; it strictly
decreases at every loop iteration. -/
def mu (grid : Grid) (s : Coord) (st : AState) : Nat :=
  Phi grid s st + st.frontier.length

theorem nodup_keys_mapSet {α : Type} (m : List (String × α)) (k : String) (v : α)
    (hnd : (m.map Prod.fst).Nodup) : ((mapSet m k v).map Prod.fst).Nodup := by
  cases hget : mapGet m k with
  | some w =>
    rw [keys_mapSet_of_get_some m k v w hget]
    exact hnd
  | none =>
    rw [keys_mapSet_of_get_none m k v hget, List.nodup_append]
    refine ⟨hnd, List.nodup_singleton k, ?_⟩
    intro a ha hb
    rw [List.mem_singleton] at hb
    subst hb
    have : (mapGet m a).isSome = true := (mapGet_isSome_iff_mem_keys m a).mpr ha
    rw [hget] at this
    exact absurd this (by simp)

theorem cost_len_le' (grid : Grid) (s : Coord) (cost : List (String × ℚ))
    (hnd : (cost.map Prod.fst).Nodup)
    (hkeys : ∀ k, (mapGet cost k).isSome = true →
      k = hash s ∨ k ∈ grid.cells.map Prod.fst) :
    cost.length ≤ grid.cells.length + 1 := by
  classical
  have hsub : ∀ k ∈ cost.map Prod.fst, k ∈ hash s :: grid.cells.map Prod.fst := by
    intro k hk
    have hks : (mapGet cost k).isSome = true :=
      (mapGet_isSome_iff_mem_keys _ k).mpr hk
    rcases hkeys k hks with h | h
    · exact h ▸ List.mem_cons_self _ _
    · exact List.mem_cons_of_mem _ h
  calc cost.length = (cost.map Prod.fst).length := by simp
    _ = (cost.map Prod.fst).toFinset.card :=
        (List.toFinset_card_of_nodup hnd).symm
    _ ≤ (hash s :: grid.cells.map Prod.fst).toFinset.card := Finset.card_le_card (by
        intro k hk
        rw [List.mem_toFinset] at hk ⊢
        exact hsub k hk)
    _ ≤ (hash s :: grid.cells.map Prod.fst).length := List.toFinset_card_le _
    _ = grid.cells.length + 1 := by simp

theorem cost_len_le {grid : Grid} {s e : Coord} {st : AState} (inv : AInv grid s e st) :
    st.costSoFar.length ≤ grid.cells.length + 1 :=
  cost_len_le' grid s st.costSoFar inv.cost_nodup inv.cost_keys

theorem phi_lt_of_set {grid : Grid} {s : Coord}
    {cost cost' : List (String × ℚ)} {k0 : String}
    (hmem : k0 ∈ hash s :: grid.cells.map Prod.fst)
    (hsame : ∀ k, k ≠ k0 → mapGet cost' k = mapGet cost k)
    (hdec : potOf (grid.cells.length + 1) cost' k0 <
      potOf (grid.cells.length + 1) cost k0) :
    ((hash s :: grid.cells.map Prod.fst).map
        (potOf (grid.cells.length + 1) cost')).sum <
      ((hash s :: grid.cells.map Prod.fst).map
        (potOf (grid.cells.length + 1) cost)).sum := by
  apply List.sum_lt_sum
  · intro k _
    by_cases hk : k = k0
    · subst hk
      exact le_of_lt hdec
    · unfold potOf
      rw [hsame k hk]
  · exact ⟨k0, hmem, hdec⟩

/-! ### C1: equations for one relaxation -/

theorem relaxNeighbor_improve (e current next : Coord) (st : AState) (v_cur : ℚ)
    (hc : mapGet st.costSoFar (hash current) = some v_cur)
    (himp : (match mapGet st.costSoFar (hash next) with
      | none => true
      | some old => decide (v_cur + 1 < old)) = true) :
    relaxNeighbor e defaultHeuristic defaultCostFn current st next =
      ⟨pqEnqueue st.frontier next (v_cur + 1 + distance (coordQ next) (coordQ e)),
       mapSet st.cameFrom (hash next) (some current),
       mapSet st.costSoFar (hash next) (v_cur + 1)⟩ := by
  unfold relaxNeighbor
  rw [hc]
  simp only [Option.getD_some, defaultCostFn, defaultHeuristic]
  rw [if_pos himp]

theorem relaxNeighbor_skip (e current next : Coord) (st : AState) (v_cur : ℚ)
    (hc : mapGet st.costSoFar (hash current) = some v_cur)
    (himp : ¬ ((match mapGet st.costSoFar (hash next) with
      | none => true
      | some old => decide (v_cur + 1 < old)) = true)) :
    relaxNeighbor e defaultHeuristic defaultCostFn current st next = st := by
  unfold relaxNeighbor
  rw [hc]
  simp only [Option.getD_some, defaultCostFn, defaultHeuristic]
  rw [if_neg himp]

/-! ### C1: the weakened invariant during neighbor relaxation -/

/-- `AInv` with `node_inv` exempted at the just-popped key `curKey`
(its closedness is only re-established once all neighbors have been
relaxed). -/
structure AInvW (grid : Grid) (s e : Coord) (curKey : String) (st : AState) : Prop where
  sorted : st.frontier.Pairwise pqLe
  cost_start : mapGet st.costSoFar (hash s) = some 0
  cost_real : ∀ k v, mapGet st.costSoFar k = some v →
    ∃ c n, hash c = k ∧ HopPath grid s c n ∧ (n : ℚ) = v
  front_has_cost : ∀ en ∈ st.frontier, ∃ v, mapGet st.costSoFar (hash en.item) = some v
  goal_entry_ge : ∀ en ∈ st.frontier, hash en.item = hash e →
    ∃ v, mapGet st.costSoFar (hash e) = some v ∧ v ≤ en.priority
  node_inv : ∀ c v, hash c ≠ curKey → mapGet st.costSoFar (hash c) = some v →
    (∃ en ∈ st.frontier, en.item = c ∧
      en.priority ≤ v + distance (coordQ c) (coordQ e)) ∨
    (∀ n ∈ getNeighbors grid c true, ∃ v', mapGet st.costSoFar (hash n) = some v' ∧
      v' ≤ v + 1)
  goal_open : ∀ v, mapGet st.costSoFar (hash e) = some v →
    ∃ en ∈ st.frontier, hash en.item = hash e
  cf_start : mapGet st.cameFrom (hash s) = some none
  cf_keys_iff : ∀ k, (mapGet st.cameFrom k).isSome = (mapGet st.costSoFar k).isSome
  cf_edge : ∀ k q, mapGet st.cameFrom k = some (some q) →
    ∃ c vk vq, hash c = k ∧ Step grid q c ∧
      mapGet st.costSoFar k = some vk ∧
      mapGet st.costSoFar (hash q) = some vq ∧ vq + 1 ≤ vk
  cf_none : ∀ k, mapGet st.cameFrom k = some none → k = hash s
  cost_keys : ∀ k, (mapGet st.costSoFar k).isSome = true →
    k = hash s ∨ k ∈ grid.cells.map Prod.fst
  cost_bound : ∀ k v, mapGet st.costSoFar k = some v →
    v + 1 ≤ (st.costSoFar.length : ℚ)
  len_eq : st.cameFrom.length = st.costSoFar.length
  cost_nodup : (st.costSoFar.map Prod.fst).Nodup

/-- Popping the head entry preserves the invariant, weakened at the
popped key. -/
theorem ainvW_of_pop {grid : Grid} {s e : Coord} {st : AState}
    {en : PQEntry} {rest : List PQEntry}
    (inv : AInv grid s e st) (hfr : st.frontier = en :: rest)
    (hng : hash en.item ≠ hash e) :
    AInvW grid s e (hash en.item) { st with frontier := rest } := by
  have hsorted : rest.Pairwise pqLe := by
    have := inv.sorted
    rw [hfr] at this
    exact (List.pairwise_cons.mp this).2
  refine ⟨hsorted, inv.cost_start, inv.cost_real, ?_, ?_, ?_, ?_, inv.cf_start,
    inv.cf_keys_iff, inv.cf_edge, inv.cf_none, inv.cost_keys, inv.cost_bound,
    inv.len_eq, inv.cost_nodup⟩
  · intro en2 hen2
    exact inv.front_has_cost en2 (hfr ▸ List.mem_cons_of_mem _ hen2)
  · intro en2 hen2 hge
    exact inv.goal_entry_ge en2 (hfr ▸ List.mem_cons_of_mem _ hen2) hge
  · intro c v hne hv
    rcases inv.node_inv c v hv with ⟨en2, hmem2, hitem2, hpr2⟩ | hclosed
    · rw [hfr] at hmem2
      rcases List.mem_cons.mp hmem2 with rfl | hmem3
      · exact absurd (hitem2 ▸ rfl) hne
      · exact Or.inl ⟨en2, hmem3, hitem2, hpr2⟩
    · exact Or.inr hclosed
  · intro v hv
    obtain ⟨en2, hmem2, hh2⟩ := inv.goal_open v hv
    rw [hfr] at hmem2
    rcases List.mem_cons.mp hmem2 with rfl | hmem3
    · exact absurd hh2 hng
    · exact ⟨en2, hmem3, hh2⟩

/-- Once every passable neighbor of the popped coordinate has a recorded
cost at most one above its own, the full invariant holds again. -/
theorem ainv_of_ainvW {grid : Grid} {s e : Coord} {current : Coord} {st : AState}
    (hW : AInvW grid s e (hash current) st) (v_cur : ℚ)
    (hc : mapGet st.costSoFar (hash current) = some v_cur)
    (hclosed : ∀ n ∈ getNeighbors grid current true,
      ∃ v', mapGet st.costSoFar (hash n) = some v' ∧ v' ≤ v_cur + 1) :
    AInv grid s e st := by
  refine ⟨hW.sorted, hW.cost_start, hW.cost_real, hW.front_has_cost,
    hW.goal_entry_ge, ?_, hW.goal_open, hW.cf_start, hW.cf_keys_iff, hW.cf_edge,
    hW.cf_none, hW.cost_keys, hW.cost_bound, hW.len_eq, hW.cost_nodup⟩
  intro c v hv
  by_cases hck : hash c = hash current
  · have hcc : c = current := hash_injective hck
    subst hcc
    have hvv : v = v_cur := Option.some.inj (hv.symm.trans hc)
    subst hvv
    exact Or.inr hclosed
  · exact hW.node_inv c v hck hv

/-- One neighbor relaxation preserves the weakened invariant, keeps the
popped coordinate's cost, leaves the relaxed neighbor with a cost at
most `v_cur + 1`, keeps every previously established cost bound, and
does not increase the termination measure. -/
theorem relax_preserve (grid : Grid) (s e : Coord) (current next : Coord)
    (v_cur : ℚ) (n_cur : ℕ) (st : AState)
    (hW : AInvW grid s e (hash current) st)
    (hc : mapGet st.costSoFar (hash current) = some v_cur)
    (hnat : v_cur = (n_cur : ℚ))
    (hpath : HopPath grid s current n_cur)
    (hstep : Step grid current next) :
    AInvW grid s e (hash current)
      (relaxNeighbor e defaultHeuristic defaultCostFn current st next) ∧
    mapGet (relaxNeighbor e defaultHeuristic defaultCostFn current st next).costSoFar
      (hash current) = some v_cur ∧
    (∃ v', mapGet (relaxNeighbor e defaultHeuristic defaultCostFn current st
        next).costSoFar (hash next) = some v' ∧ v' ≤ v_cur + 1) ∧
    (∀ k (b : ℚ), (∃ v', mapGet st.costSoFar k = some v' ∧ v' ≤ b) →
      ∃ v', mapGet (relaxNeighbor e defaultHeuristic defaultCostFn current st
        next).costSoFar k = some v' ∧ v' ≤ b) ∧
    mu grid s (relaxNeighbor e defaultHeuristic defaultCostFn current st next) ≤
      mu grid s st := by
  have hnn : next ≠ current := by
    obtain ⟨d, hd, rfl⟩ := step_add hstep
    exact add_ne_self current d hd
  have hkne : hash next ≠ hash current := hash_ne_of_ne hnn
  have hnext_key : hash next ∈ grid.cells.map Prod.fst := by
    have hcell : hasCell grid next = true := ((step_iff grid current next).mp hstep).2.1
    unfold hasCell mapHas at hcell
    exact (mapGet_isSome_iff_mem_keys _ _).mp hcell
  have hvnn : (0 : ℚ) ≤ v_cur := by
    rw [hnat]
    positivity
  by_cases himp : (match mapGet st.costSoFar (hash next) with
      | none => true
      | some old => decide (v_cur + 1 < old)) = true
  case neg =>
    rw [relaxNeighbor_skip e current next st v_cur hc himp]
    refine ⟨hW, hc, ?_, fun k b h => h, le_refl _⟩
    cases hold : mapGet st.costSoFar (hash next) with
    | none =>
      exfalso
      apply himp
      have : (match (none : Option ℚ) with
          | none => true
          | some old => decide (v_cur + 1 < old)) = true := rfl
      rw [← hold] at this
      exact this
    | some old =>
      refine ⟨old, rfl, ?_⟩
      by_contra hlt
      apply himp
      have hd : decide (v_cur + 1 < old) = true := decide_eq_true (by linarith [lt_of_not_le hlt])
      rw [hold]
      exact hd
  case pos =>
    have hlow : ∀ old, mapGet st.costSoFar (hash next) = some old → v_cur + 1 < old := by
      intro old hold
      rw [hold] at himp
      exact of_decide_eq_true himp
    have hsne : hash s ≠ hash next := by
      intro hq
      have h0 : mapGet st.costSoFar (hash next) = some 0 := by
        rw [← hq]
        exact hW.cost_start
      have := hlow 0 h0
      linarith
    have hnatnew : v_cur + 1 = ((n_cur + 1 : ℕ) : ℚ) := by
      rw [hnat]
      push_cast
      ring
    have hpathnext : HopPath grid s next (n_cur + 1) := HopPath.step hpath hstep
    rw [relaxNeighbor_improve e current next st v_cur hc himp]
    have hnews : mapGet (mapSet st.costSoFar (hash next) (v_cur + 1)) (hash next) =
        some (v_cur + 1) := mapGet_mapSet_self _ _ _
    have hsame : ∀ k, k ≠ hash next →
        mapGet (mapSet st.costSoFar (hash next) (v_cur + 1)) k =
          mapGet st.costSoFar k :=
      fun k hk => mapGet_mapSet_ne _ _ _ _ hk
    have hsame_cf : ∀ k, k ≠ hash next →
        mapGet (mapSet st.cameFrom (hash next) (some current)) k =
          mapGet st.cameFrom k :=
      fun k hk => mapGet_mapSet_ne _ _ _ _ hk
    have hnews_cf : mapGet (mapSet st.cameFrom (hash next) (some current))
        (hash next) = some (some current) := mapGet_mapSet_self _ _ _
    have hlen_le : st.costSoFar.length ≤ grid.cells.length + 1 :=
      cost_len_le' grid s st.costSoFar hW.cost_nodup hW.cost_keys
    constructor
    · -- the weakened invariant for the updated state
      refine ⟨?_, ?_, ?_, ?_, ?_, ?_, ?_, ?_, ?_, ?_, ?_, ?_, ?_, ?_, ?_⟩
      · exact pqEnqueue_sorted _ _ _
      · show mapGet (mapSet st.costSoFar (hash next) (v_cur + 1)) (hash s) = some 0
        rw [hsame (hash s) hsne]
        exact hW.cost_start
      · intro k v hv
        by_cases hk : k = hash next
        · subst hk
          rw [hnews] at hv
          obtain rfl : v_cur + 1 = v := Option.some.inj hv
          exact ⟨next, n_cur + 1, rfl, hpathnext, hnatnew.symm⟩
        · rw [hsame k hk] at hv
          exact hW.cost_real k v hv
      · intro en hen
        rcases mem_pqEnqueue.mp hen with hold | rfl
        · obtain ⟨v0, hv0⟩ := hW.front_has_cost en hold
          by_cases hk : hash en.item = hash next
          · exact ⟨v_cur + 1, hk ▸ hnews⟩
          · exact ⟨v0, (hsame _ hk) ▸ hv0⟩
        · exact ⟨v_cur + 1, hnews⟩
      · intro en hen hge
        rcases mem_pqEnqueue.mp hen with hold | rfl
        · obtain ⟨ve, hve, hle⟩ := hW.goal_entry_ge en hold hge
          by_cases hk : hash e = hash next
          · obtain ⟨old, hold2⟩ : ∃ old, mapGet st.costSoFar (hash next) = some old :=
              ⟨ve, hk ▸ hve⟩
            have hveold : ve = old := by
              have h2 : mapGet st.costSoFar (hash next) = some ve := hk ▸ hve
              exact Option.some.inj (h2.symm.trans hold2)
            refine ⟨v_cur + 1, hk ▸ hnews, ?_⟩
            have := hlow old hold2
            calc v_cur + 1 ≤ old := le_of_lt this
              _ = ve := hveold.symm
              _ ≤ en.priority := hle
          · exact ⟨ve, (hsame _ hk) ▸ hve, hle⟩
        · -- the freshly enqueued entry: its item is `next`
          have hne : next = e := hash_injective hge
          subst hne
          refine ⟨v_cur + 1, hge ▸ hnews, ?_⟩
          show v_cur + 1 ≤ v_cur + 1 + distance (coordQ next) (coordQ next)
          rw [distance_self]
          linarith
      · intro c v hck hv
        by_cases hk : hash c = hash next
        · have hcc : c = next := hash_injective hk
          subst hcc
          rw [hk] at hv
          rw [hnews] at hv
          obtain rfl : v_cur + 1 = v := Option.some.inj hv
          exact Or.inl ⟨⟨c, v_cur + 1 + distance (coordQ c) (coordQ e)⟩,
            mem_pqEnqueue.mpr (Or.inr rfl), rfl, le_refl _⟩
        · rw [hsame _ hk] at hv
          rcases hW.node_inv c v hck hv with ⟨en, hen, hitem, hpr⟩ | hclosed
          · exact Or.inl ⟨en, mem_pqEnqueue.mpr (Or.inl hen), hitem, hpr⟩
          · refine Or.inr ?_
            intro n hn
            obtain ⟨v', hv', hb⟩ := hclosed n hn
            by_cases hk2 : hash n = hash next
            · have hold2 : mapGet st.costSoFar (hash next) = some v' := hk2 ▸ hv'
              refine ⟨v_cur + 1, hk2 ▸ hnews, ?_⟩
              have := hlow v' hold2
              linarith
            · exact ⟨v', (hsame _ hk2) ▸ hv', hb⟩
      · intro v hv
        by_cases hk : hash e = hash next
        · refine ⟨⟨next, v_cur + 1 + distance (coordQ next) (coordQ e)⟩,
            mem_pqEnqueue.mpr (Or.inr rfl), hk.symm⟩
        · rw [hsame _ hk] at hv
          obtain ⟨en, hen, hh⟩ := hW.goal_open v hv
          exact ⟨en, mem_pqEnqueue.mpr (Or.inl hen), hh⟩
      · show mapGet (mapSet st.cameFrom (hash next) (some current)) (hash s) =
          some none
        rw [hsame_cf (hash s) hsne]
        exact hW.cf_start
      · intro k
        by_cases hk : k = hash next
        · subst hk
          rw [hnews, hnews_cf]
          rfl
        · rw [hsame _ hk, hsame_cf _ hk]
          exact hW.cf_keys_iff k
      · intro k q hq
        by_cases hk : k = hash next
        · subst hk
          rw [hnews_cf] at hq
          obtain rfl : current = q := Option.some.inj (Option.some.inj hq)
          refine ⟨next, v_cur + 1, v_cur, rfl, hstep, hnews, ?_, le_refl _⟩
          rw [hsame _ (Ne.symm hkne)]
          exact hc
        · rw [hsame_cf _ hk] at hq
          obtain ⟨c', vk, vq, hc', hst', hvk, hvq, hle⟩ := hW.cf_edge k q hq
          refine ⟨c', vk, ?_⟩
          by_cases hk2 : hash q = hash next
          · have hold2 : mapGet st.costSoFar (hash next) = some vq := hk2 ▸ hvq
            have hlt := hlow vq hold2
            exact ⟨v_cur + 1, hc', hst', (hsame _ hk) ▸ hvk, hk2 ▸ hnews, by linarith⟩
          · exact ⟨vq, hc', hst', (hsame _ hk) ▸ hvk, (hsame _ hk2) ▸ hvq, hle⟩
      · intro k hk
        by_cases hk2 : k = hash next
        · subst hk2
          rw [hnews_cf] at hk
          exact absurd (Option.some.inj hk) (by simp)
        · rw [hsame_cf _ hk2] at hk
          exact hW.cf_none k hk
      · intro k hk
        by_cases hk2 : k = hash next
        · subst hk2
          exact Or.inr hnext_key
        · rw [hsame _ hk2] at hk
          exact hW.cost_keys k hk
      · intro k v hv
        cases hold : mapGet st.costSoFar (hash next) with
        | none =>
          have hlen : (mapSet st.costSoFar (hash next) (v_cur + 1)).length =
              st.costSoFar.length + 1 :=
            length_mapSet_of_get_none _ _ _ hold
          rw [hlen]
          by_cases hk2 : k = hash next
          · subst hk2
            rw [hnews] at hv
            obtain rfl : v_cur + 1 = v := Option.some.inj hv
            have hb := hW.cost_bound (hash current) v_cur hc
            push_cast
            linarith
          · rw [hsame _ hk2] at hv
            have hb := hW.cost_bound k v hv
            push_cast
            linarith
        | some old =>
          have hlen : (mapSet st.costSoFar (hash next) (v_cur + 1)).length =
              st.costSoFar.length :=
            length_mapSet_of_get_some _ _ _ old hold
          rw [hlen]
          by_cases hk2 : k = hash next
          · subst hk2
            rw [hnews] at hv
            obtain rfl : v_cur + 1 = v := Option.some.inj hv
            have hb := hW.cost_bound (hash next) old hold
            have := hlow old hold
            linarith
          · rw [hsame _ hk2] at hv
            exact hW.cost_bound k v hv
      · show (mapSet st.cameFrom (hash next) (some current)).length =
          (mapSet st.costSoFar (hash next) (v_cur + 1)).length
        cases hold : mapGet st.costSoFar (hash next) with
        | none =>
          have hcfnone : mapGet st.cameFrom (hash next) = none := by
            have := hW.cf_keys_iff (hash next)
            rw [hold] at this
            simp only [Option.isSome_none] at this
            exact Option.not_isSome_iff_eq_none.mp (by simp [this])
          rw [length_mapSet_of_get_none _ _ _ hold,
            length_mapSet_of_get_none _ _ _ hcfnone, hW.len_eq]
        | some old =>
          have hcfsome : (mapGet st.cameFrom (hash next)).isSome = true := by
            rw [hW.cf_keys_iff (hash next), hold]
            rfl
          obtain ⟨ov, hov⟩ := Option.isSome_iff_exists.mp hcfsome
          rw [length_mapSet_of_get_some _ _ _ old hold,
            length_mapSet_of_get_some _ _ _ ov hov, hW.len_eq]
      · exact nodup_keys_mapSet _ _ _ hW.cost_nodup
    constructor
    · show mapGet (mapSet st.costSoFar (hash next) (v_cur + 1)) (hash current) =
        some v_cur
      rw [hsame _ (Ne.symm hkne)]
      exact hc
    constructor
    · exact ⟨v_cur + 1, hnews, le_refl _⟩
    constructor
    · intro k b ⟨v', hv', hb⟩
      by_cases hk : k = hash next
      · subst hk
        have := hlow v' hv'
        exact ⟨v_cur + 1, hnews, by linarith⟩
      · exact ⟨v', (hsame _ hk) ▸ hv', hb⟩
    · -- the termination measure does not increase
      have hflen : (pqEnqueue st.frontier next
          (v_cur + 1 + distance (coordQ next) (coordQ e))).length =
          st.frontier.length + 1 := length_pqEnqueue _ _ _
      have hphi : Phi grid s ⟨pqEnqueue st.frontier next
            (v_cur + 1 + distance (coordQ next) (coordQ e)),
          mapSet st.cameFrom (hash next) (some current),
          mapSet st.costSoFar (hash next) (v_cur + 1)⟩ < Phi grid s st := by
        unfold Phi
        apply @phi_lt_of_set grid s st.costSoFar
          (mapSet st.costSoFar (hash next) (v_cur + 1)) (hash next)
        · exact List.mem_cons_of_mem _ hnext_key
        · intro k hk
          exact hsame k hk
        · unfold potOf
          cases hold : mapGet st.costSoFar (hash next) with
          | none =>
            show (match mapGet (mapSet st.costSoFar (hash next) (v_cur + 1))
                (hash next) with
              | none => grid.cells.length + 1 + 1
              | some v => (⌊v⌋).toNat) < grid.cells.length + 1 + 1
            rw [hnews]
            show (⌊v_cur + 1⌋).toNat < grid.cells.length + 1 + 1
            have hlen : (mapSet st.costSoFar (hash next) (v_cur + 1)).length =
                st.costSoFar.length + 1 :=
              length_mapSet_of_get_none _ _ _ hold
            have hb := hW.cost_bound (hash current) v_cur hc
            have hq1 : v_cur + 1 ≤ (grid.cells.length + 1 : ℚ) := by
              have : (st.costSoFar.length : ℚ) ≤ (grid.cells.length + 1 : ℚ) := by
                exact_mod_cast hlen_le
              linarith
            have hq2 : (n_cur + 1 : ℕ) ≤ grid.cells.length + 1 := by
              rw [hnatnew] at hq1
              exact_mod_cast hq1
            have hfloor : ⌊v_cur + 1⌋ = (n_cur + 1 : ℕ) := by
              rw [hnatnew]
              exact Int.floor_natCast _
            rw [hfloor]
            simp only [Int.toNat_natCast]
            omega
          | some old =>
            show (match mapGet (mapSet st.costSoFar (hash next) (v_cur + 1))
                (hash next) with
              | none => grid.cells.length + 1 + 1
              | some v => (⌊v⌋).toNat) < (⌊old⌋).toNat
            rw [hnews]
            show (⌊v_cur + 1⌋).toNat < (⌊old⌋).toNat
            obtain ⟨co, mo, hco, hpo, hmo⟩ := hW.cost_real (hash next) old hold
            have hlt := hlow old hold
            have hmlt : (n_cur + 1 : ℕ) < mo := by
              have : ((n_cur + 1 : ℕ) : ℚ) < (mo : ℚ) := by
                rw [← hnatnew, hmo]
                exact hlt
              exact_mod_cast this
            have hfloor : ⌊v_cur + 1⌋ = (n_cur + 1 : ℕ) := by
              rw [hnatnew]
              exact Int.floor_natCast _
            have hfloor2 : ⌊old⌋ = (mo : ℤ) := by
              rw [← hmo]
              exact Int.floor_natCast _
            rw [hfloor, hfloor2]
            simp only [Int.toNat_natCast]
            omega
      unfold mu
      dsimp only
      rw [hflen]
      omega

/-- Folding one relaxation per passable neighbor preserves the weakened
invariant, records a cost of at most `v_cur + 1` for every neighbor,
and does not increase the measure. -/
theorem relax_fold (grid : Grid) (s e : Coord) (current : Coord)
    (v_cur : ℚ) (n_cur : ℕ)
    (hnat : v_cur = (n_cur : ℚ)) (hpath : HopPath grid s current n_cur) :
    ∀ (ns : List Coord) (st : AState),
      (∀ n ∈ ns, Step grid current n) →
      AInvW grid s e (hash current) st →
      mapGet st.costSoFar (hash current) = some v_cur →
      AInvW grid s e (hash current)
        (ns.foldl (relaxNeighbor e defaultHeuristic defaultCostFn current) st) ∧
      mapGet ((ns.foldl (relaxNeighbor e defaultHeuristic defaultCostFn current)
        st)).costSoFar (hash current) = some v_cur ∧
      (∀ k (b : ℚ), (∃ v', mapGet st.costSoFar k = some v' ∧ v' ≤ b) →
        ∃ v', mapGet ((ns.foldl (relaxNeighbor e defaultHeuristic defaultCostFn
          current) st)).costSoFar k = some v' ∧ v' ≤ b) ∧
      (∀ n ∈ ns, ∃ v', mapGet ((ns.foldl (relaxNeighbor e defaultHeuristic
        defaultCostFn current) st)).costSoFar (hash n) = some v' ∧ v' ≤ v_cur + 1) ∧
      mu grid s (ns.foldl (relaxNeighbor e defaultHeuristic defaultCostFn current)
        st) ≤ mu grid s st := by
  intro ns
  induction ns with
  | nil =>
    intro st _ hW hc
    exact ⟨hW, hc, fun k b h => h, by simp, le_refl _⟩
  | cons n rest ih =>
    intro st hsteps hW hc
    have hstepn : Step grid current n := hsteps n (List.mem_cons_self _ _)
    obtain ⟨hW1, hc1, hbnd_n, hkeep1, hmu1⟩ :=
      relax_preserve grid s e current n v_cur n_cur st hW hc hnat hpath hstepn
    obtain ⟨hW2, hc2, hkeep2, hbnd_rest, hmu2⟩ :=
      ih (relaxNeighbor e defaultHeuristic defaultCostFn current st n)
        (fun m hm => hsteps m (List.mem_cons_of_mem _ hm)) hW1 hc1
    rw [List.foldl_cons]
    refine ⟨hW2, hc2, ?_, ?_, le_trans hmu2 hmu1⟩
    · intro k b hb
      exact hkeep2 k b (hkeep1 k b hb)
    · intro m hm
      rcases List.mem_cons.mp hm with rfl | hm2
      · exact hkeep2 (hash m) (v_cur + 1) hbnd_n
      · exact hbnd_rest m hm2

/-- One full loop iteration (pop plus neighbor relaxation) preserves the
invariant and strictly decreases the measure. -/
theorem astar_iterate (grid : Grid) (s e : Coord) (st : AState)
    (en : PQEntry) (rest : List PQEntry)
    (inv : AInv grid s e st) (hfr : st.frontier = en :: rest)
    (hng : hash en.item ≠ hash e) :
    AInv grid s e ((getNeighbors grid en.item true).foldl
      (relaxNeighbor e defaultHeuristic defaultCostFn en.item)
      { st with frontier := rest }) ∧
    mu grid s ((getNeighbors grid en.item true).foldl
      (relaxNeighbor e defaultHeuristic defaultCostFn en.item)
      { st with frontier := rest }) < mu grid s st := by
  obtain ⟨v_cur, hc⟩ := inv.front_has_cost en (hfr ▸ List.mem_cons_self _ _)
  obtain ⟨c', n_cur, hc'h, hpath', hnat'⟩ := inv.cost_real (hash en.item) v_cur hc
  have hcc : c' = en.item := hash_injective hc'h
  rw [hcc] at hpath'
  have hW0 : AInvW grid s e (hash en.item) { st with frontier := rest } :=
    ainvW_of_pop inv hfr hng
  obtain ⟨hW', hc', hkeep, hclosed', hmu'⟩ :=
    relax_fold grid s e en.item v_cur n_cur hnat'.symm hpath'
      (getNeighbors grid en.item true) { st with frontier := rest }
      (fun n hn => hn) hW0 hc
  refine ⟨ainv_of_ainvW hW' v_cur hc' hclosed', ?_⟩
  have hmu0 : mu grid s { st with frontier := rest } + 1 = mu grid s st := by
    unfold mu Phi
    dsimp only
    rw [hfr]
    simp [Nat.add_assoc]
  omega

/-! ### C1: the initial state -/

theorem init_cost_get (s : Coord) (k : String) :
    mapGet (initState s).costSoFar k = if hash s = k then some (0 : ℚ) else none := rfl

theorem init_cf_get (s : Coord) (k : String) :
    mapGet (initState s).cameFrom k =
      if hash s = k then some (none : Option Coord) else none := rfl

/-- The initial search state satisfies the loop invariant. -/
theorem astar_init (grid : Grid) (s e : Coord) (hse : s ≠ e) :
    AInv grid s e (initState s) := by
  have hne : hash s ≠ hash e := hash_ne_of_ne hse
  refine ⟨?_, ?_, ?_, ?_, ?_, ?_, ?_, ?_, ?_, ?_, ?_, ?_, ?_, ?_, ?_⟩
  · exact List.pairwise_singleton _ _
  · rw [init_cost_get, if_pos rfl]
  · intro k v hv
    rw [init_cost_get] at hv
    by_cases hk : hash s = k
    · rw [if_pos hk] at hv
      have hv0 : (0 : ℚ) = v := Option.some.inj hv
      exact ⟨s, 0, hk, HopPath.refl, by exact_mod_cast hv0⟩
    · rw [if_neg hk] at hv
      exact absurd hv (by simp)
  · intro en hen
    have he : en = ⟨s, 0⟩ := List.mem_singleton.mp hen
    subst he
    exact ⟨0, by rw [init_cost_get, if_pos rfl]⟩
  · intro en hen hge
    have he : en = ⟨s, 0⟩ := List.mem_singleton.mp hen
    subst he
    exact absurd hge hne
  · intro c v hv
    rw [init_cost_get] at hv
    by_cases hk : hash s = hash c
    · rw [if_pos hk] at hv
      have hcs : s = c := hash_injective hk
      subst hcs
      have hv0 : (0 : ℚ) = v := Option.some.inj hv
      refine Or.inl ⟨⟨s, 0⟩, List.mem_singleton.mpr rfl, rfl, ?_⟩
      rw [← hv0]
      simpa using distance_nonneg (coordQ s) (coordQ e)
    · rw [if_neg hk] at hv
      exact absurd hv (by simp)
  · intro v hv
    rw [init_cost_get, if_neg hne] at hv
    exact absurd hv (by simp)
  · rw [init_cf_get, if_pos rfl]
  · intro k
    rw [init_cf_get, init_cost_get]
    by_cases hk : hash s = k <;> simp [hk]
  · intro k q hq
    rw [init_cf_get] at hq
    by_cases hk : hash s = k
    · rw [if_pos hk] at hq
      exact absurd (Option.some.inj hq) (by simp)
    · rw [if_neg hk] at hq
      exact absurd hq (by simp)
  · intro k hk0
    rw [init_cf_get] at hk0
    by_cases hk : hash s = k
    · exact hk.symm
    · rw [if_neg hk] at hk0
      exact absurd hk0 (by simp)
  · intro k hk0
    rw [init_cost_get] at hk0
    by_cases hk : hash s = k
    · exact Or.inl hk.symm
    · rw [if_neg hk] at hk0
      exact absurd hk0 (by simp)
  · intro k v hv
    rw [init_cost_get] at hv
    by_cases hk : hash s = k
    · rw [if_pos hk] at hv
      have hv0 : (0 : ℚ) = v := Option.some.inj hv
      rw [← hv0]
      norm_num [initState]
    · rw [if_neg hk] at hv
      exact absurd hv (by simp)
  · rfl
  · simp [initState]

/-- The chosen fuel strictly dominates the initial measure. -/
theorem astar_init_mu (grid : Grid) (s : Coord) :
    mu grid s (initState s) < findPathFuel grid := by
  have hpot : ∀ k, potOf (grid.cells.length + 1) (initState s).costSoFar k ≤
      grid.cells.length + 2 := by
    intro k
    unfold potOf
    rw [init_cost_get]
    by_cases hk : hash s = k
    · rw [if_pos hk]
      show (⌊(0 : ℚ)⌋).toNat ≤ grid.cells.length + 2
      simp
    · rw [if_neg hk]
  have hsum : Phi grid s (initState s) ≤
      (grid.cells.length + 1) * (grid.cells.length + 2) := by
    unfold Phi
    have hlen : ((hash s :: grid.cells.map Prod.fst).map
        (potOf (grid.cells.length + 1) (initState s).costSoFar)).length =
        grid.cells.length + 1 := by simp
    have h1 := List.sum_le_card_nsmul
      ((hash s :: grid.cells.map Prod.fst).map
        (potOf (grid.cells.length + 1) (initState s).costSoFar))
      (grid.cells.length + 2)
      (by
        intro x hx
        obtain ⟨k, hk, rfl⟩ := List.mem_map.mp hx
        exact hpot k)
    rw [hlen] at h1
    simpa [smul_eq_mul] using h1
  have hfr : (initState s).frontier.length = 1 := rfl
  have hmul : (grid.cells.length + 1) * (grid.cells.length + 2) ≤
      (grid.cells.length + 2) * (grid.cells.length + 2) :=
    Nat.mul_le_mul_right _ (by omega)
  unfold mu findPathFuel
  rw [hfr]
  omega

/-! ### C1: the main loop -/

theorem astarLoop_nil (grid : Grid) (s e : Coord) (hf cf : Coord → Coord → ℚ)
    (f : Nat) (st : AState) (h : st.frontier = []) :
    astarLoop grid s e hf cf (f + 1) st = some none := by
  obtain ⟨fr, cfr, cst⟩ := st
  have h' : fr = [] := h
  subst h'
  rfl

theorem astarLoop_cons (grid : Grid) (s e : Coord) (hf cf : Coord → Coord → ℚ)
    (f : Nat) (st : AState) (en : PQEntry) (rest : List PQEntry)
    (h : st.frontier = en :: rest) :
    astarLoop grid s e hf cf (f + 1) st =
      if hash en.item = hash e then
        some (some (reconstructPath st.cameFrom (hash s) (st.cameFrom.length + 1) e []))
      else
        astarLoop grid s e hf cf f
          ((getNeighbors grid en.item true).foldl (relaxNeighbor e hf cf en.item)
            { st with frontier := rest }) := by
  obtain ⟨fr, cfr, cst⟩ := st
  have h' : fr = en :: rest := h
  subst h'
  rfl

/-- Total correctness of the main loop from any invariant state with
enough fuel: the loop terminates, a returned path is valid and at most
one cell longer than every hop count to the goal, and a null result
means no hop path to the goal exists at all. -/
theorem astarLoop_correct (grid : Grid) (s e : Coord) :
    ∀ (fuel : Nat) (st : AState), AInv grid s e st → mu grid s st < fuel →
      ∃ r, astarLoop grid s e defaultHeuristic defaultCostFn fuel st = some r ∧
        (∀ p, r = some p → ValidPath grid s e p ∧
          ∀ n, HopPath grid s e n → p.length ≤ n + 1) ∧
        (r = none → ∀ n, ¬ HopPath grid s e n) := by
  intro fuel
  induction fuel with
  | zero =>
    intro st _ hmu
    exact absurd hmu (Nat.not_lt_zero _)
  | succ f ih =>
    intro st inv hmu
    cases hfr : st.frontier with
    | nil =>
      refine ⟨none, astarLoop_nil grid s e _ _ f st hfr, ?_, ?_⟩
      · intro p hp
        exact absurd hp (by simp)
      · intro _ n hp
        rcases astar_use inv hp with ⟨v, hv, _⟩ | ⟨en, hen, _⟩
        · obtain ⟨en, hen, _⟩ := inv.goal_open v hv
          rw [hfr] at hen
          exact absurd hen (List.not_mem_nil en)
        · rw [hfr] at hen
          exact absurd hen (List.not_mem_nil en)
    | cons en rest =>
      by_cases hgoal : hash en.item = hash e
      · obtain ⟨v_e, hve'⟩ := inv.front_has_cost en (hfr ▸ List.mem_cons_self _ _)
        have hvee : mapGet st.costSoFar (hash e) = some v_e := by
          rw [← hgoal]
          exact hve'
        obtain ⟨ce, m_e, hceh, hpe, hme⟩ := inv.cost_real (hash e) v_e hvee
        have hcee : ce = e := hash_injective hceh
        rw [hcee] at hpe
        have hmlt : m_e < st.cameFrom.length + 1 := by
          have hb := inv.cost_bound (hash e) v_e hvee
          rw [← hme] at hb
          have hml : m_e + 1 ≤ st.costSoFar.length := by exact_mod_cast hb
          have hle := inv.len_eq
          omega
        obtain ⟨pre, heq, hh, hl, hch, hlen⟩ :=
          reconstruct_spec grid s e st inv m_e (st.cameFrom.length + 1) e [] v_e
            hvee hme.symm hmlt
        rw [List.append_nil] at heq
        refine ⟨some (reconstructPath st.cameFrom (hash s) (st.cameFrom.length + 1) e []),
          ?_, ?_, by simp⟩
        · rw [astarLoop_cons grid s e _ _ f st en rest hfr, if_pos hgoal]
        · intro p hp
          have hpp : reconstructPath st.cameFrom (hash s) (st.cameFrom.length + 1) e [] = p :=
            Option.some.inj hp
          subst hpp
          rw [heq]
          refine ⟨⟨hh, hl, hch⟩, ?_⟩
          intro n hpn
          have hmen : (m_e : ℚ) ≤ (n : ℚ) := by
            rcases astar_use inv hpn with ⟨v', hv', hvn⟩ | ⟨en2, hen2, hpr2⟩
            · have hvv : v' = v_e := Option.some.inj (hv'.symm.trans hvee)
              rw [hvv] at hvn
              rw [hme]
              exact hvn
            · have hsorted := inv.sorted
              rw [hfr] at hsorted
              have hminp : en.priority ≤ en2.priority := by
                rw [hfr] at hen2
                rcases List.mem_cons.mp hen2 with rfl | hmem
                · exact le_refl _
                · exact head_min_of_sorted hsorted en2 hmem
              obtain ⟨v2, hv2, hle2⟩ :=
                inv.goal_entry_ge en (hfr ▸ List.mem_cons_self _ _) hgoal
              have hv2e : v2 = v_e := Option.some.inj (hv2.symm.trans hvee)
              rw [hv2e] at hle2
              rw [distance_self] at hpr2
              rw [hme]
              linarith
          have hmn : m_e ≤ n := by exact_mod_cast hmen
          omega
      · obtain ⟨inv', hmu'⟩ := astar_iterate grid s e st en rest inv hfr hgoal
        obtain ⟨r, hr, hgood⟩ := ih _ inv' (by omega)
        refine ⟨r, ?_, hgood⟩
        rw [astarLoop_cons grid s e _ _ f st en rest hfr, if_neg hgoal]
        exact hr

/-- C1.  With the default unit step cost and the default distance
heuristic, `findPath` returns a valid passable path from `start` to
`end` of minimal length among all such paths (so its hop count is the
true shortest passable-hop count), and returns null exactly when no
passable path from `start` to `end` exists. -/
theorem c1_findPath_optimal (grid : Grid) (s e : Coord) :
    (∀ p, findPath grid s e defaultHeuristic defaultCostFn = some p →
        ValidPath grid s e p ∧ ∀ q, ValidPath grid s e q → p.length ≤ q.length) ∧
    (findPath grid s e defaultHeuristic defaultCostFn = none ↔
      ¬ ∃ q, ValidPath grid s e q) := by
  by_cases hse : s = e
  · subst hse
    rw [findPath_self]
    constructor
    · intro p hp
      have hps : [s] = p := Option.some.inj hp
      subst hps
      refine ⟨⟨rfl, rfl, List.chain'_singleton s⟩, ?_⟩
      intro q hq
      simpa using validPath_length_pos hq
    · constructor
      · intro h
        exact absurd h (by simp)
      · intro hno
        exact absurd ⟨[s], rfl, rfl, List.chain'_singleton s⟩ hno
  · have hneq : ¬ (equals s e = true) := fun h => hse ((equals_iff s e).mp h)
    have hfp : findPath grid s e defaultHeuristic defaultCostFn =
        (astarLoop grid s e defaultHeuristic defaultCostFn (findPathFuel grid)
          (initState s)).join := by
      unfold findPath
      rw [if_neg hneq]
    obtain ⟨r, hr, hgood1, hgood2⟩ :=
      astarLoop_correct grid s e (findPathFuel grid) (initState s)
        (astar_init grid s e hse) (astar_init_mu grid s)
    have hfpr : findPath grid s e defaultHeuristic defaultCostFn = r := by
      rw [hfp, hr]
      rfl
    constructor
    · intro p hp
      rw [hfpr] at hp
      obtain ⟨hvalid, hmin⟩ := hgood1 p hp
      refine ⟨hvalid, ?_⟩
      intro q hq
      have hhop := hopPath_of_validPath hq
      have h1 := hmin _ hhop
      have h2 := validPath_length_pos hq
      omega
    · rw [hfpr]
      constructor
      · intro h
        subst h
        rintro ⟨q, hq⟩
        exact hgood2 rfl _ (hopPath_of_validPath hq)
      · intro hno
        cases hr2 : r with
        | none => rfl
        | some p =>
          exact absurd ⟨p, (hgood1 p hr2).1⟩ hno

/-- Concrete instance of C1: on a 2×1 pointy grid, the path `findPath`
returns for the two stored cells is a valid passable path. -/
theorem c1_findPath_optimal_witness :
    ValidPath (createGrid 2 1 Layout.pointy []) ⟨0, 0, 0⟩ ⟨1, -1, 0⟩
      [⟨0, 0, 0⟩, ⟨1, -1, 0⟩] :=
  ((c1_findPath_optimal (createGrid 2 1 Layout.pointy []) ⟨0, 0, 0⟩ ⟨1, -1, 0⟩).1
    [⟨0, 0, 0⟩, ⟨1, -1, 0⟩] (by with_unfolding_all decide)).1

end Hexes
